import Mathlib

/-!
# The seeking-tutor problem (`csmc.c`)

A verification development for `csmc.c`, the mentoring-center simulation with
student, coordinator and tutor threads.

* The linked-list priority queue (`new_node`, `peek`, `pop`, `push`,
  `is_empty`) is embedded as functions on `List node`: a `node*` list is a Lean
  list, `NULL` is `[]`, and dereferencing `NULL` (undefined behaviour in C) is
  `none`.
* The three thread functions (`run_students`, `run_coordinator`, `run_tutors`)
  are embedded as a transition system on the shared state.
* The C `int` variables are embedded as `Int`: the program only copies them,
  compares them and adds or subtracts 1; signed overflow, undefined in C, is
  not modelled.  Semaphore counts are `Nat`.
-/

namespace Csmc

/-- One cell of the linked list: `struct node` without its `next` pointer. -/
structure node where
  student_id : Int
  priority : Int
deriving DecidableEq, Repr

/-- Function `new_node(id, p)`: a fresh one-element list. -/
def new_node (id p : Int) : List node := [⟨id, p⟩]

/-- Function `peek(head)`: the student id stored at the head (`NULL` head: undefined). -/
def peek : List node → Option Int
  | [] => none
  | n :: _ => some n.student_id

/-- Function `pop(head)`: drops the head cell (`NULL` head: undefined). -/
def pop : List node → Option (List node)
  | [] => none
  | _ :: rest => some rest

/-- The `while` loop of `push` together with the two pointer writes after it:
`start` is the current cell, `rest` is the chain `start->next`, `temp` the new
cell.  The loop advances while `start->next != NULL` and
`start->next->priority <= p`. -/
def push_walk (start : node) (rest : List node) (temp : node) : List node :=
  match rest with
  | [] => [start, temp]
  | nxt :: rest' =>
    if nxt.priority ≤ temp.priority then start :: push_walk nxt rest' temp
    else start :: temp :: nxt :: rest'

/-- Function `push(head, id, p)`; the head is dereferenced first, so an empty list is
undefined behaviour. -/
def push : List node → Int → Int → Option (List node)
  | [], _, _ => none
  | h :: rest, id, p =>
    if h.priority > p then some (⟨id, p⟩ :: h :: rest)
    else some (push_walk h rest ⟨id, p⟩)

/-- Function `is_empty(head)`: `*head == NULL`. -/
def is_empty (head : List node) : Bool := head.isEmpty

/-- The way every caller in `csmc.c` inserts: `new_node` when the list is
empty, `push` otherwise. -/
def enqueue (q : List node) (id p : Int) : Option (List node) :=
  if is_empty q then some (new_node id p) else push q id p

/-! ### Operation sequences on one queue -/

/-- A queue operation: an insertion of `(id, p)` or a removal of the head. -/
inductive QOp where
  | insert (id p : Int)
  | remove
deriving DecidableEq, Repr

/-- A queue together with the log of the ids returned by `peek` at each
removal, oldest first. -/
structure QRun where
  queue : List node
  popped : List Int
deriving DecidableEq, Repr

/-- One operation: an insertion is `enqueue`; a removal is `peek` followed by
`pop`, as in `run_tutors` and `run_coordinator`. -/
def qstep (s : QRun) : QOp → Option QRun
  | .insert id p => (enqueue s.queue id p).map (fun q => { s with queue := q })
  | .remove =>
    match peek s.queue, pop s.queue with
    | some id, some q => some ⟨q, s.popped ++ [id]⟩
    | _, _ => none

/-- Runs a sequence of operations from a given state. -/
def qrunFrom (s : QRun) : List QOp → Option QRun
  | [] => some s
  | op :: ops => (qstep s op).bind (fun s' => qrunFrom s' ops)

/-- Runs a sequence of operations from the empty queue. -/
def qrun (ops : List QOp) : Option QRun := qrunFrom ⟨[], []⟩ ops

/-- The ids inserted by a sequence of operations, in insertion order. -/
def insertedIds : List QOp → List Int
  | [] => []
  | .insert id _ :: ops => id :: insertedIds ops
  | .remove :: ops => insertedIds ops

/-- Renames the ids of an operation. -/
def QOp.relabel (f : Int → Int) : QOp → QOp
  | .insert id p => .insert (f id) p
  | .remove => .remove

/-- Renames the ids of a run. -/
def QRun.relabel (f : Int → Int) (s : QRun) : QRun :=
  ⟨s.queue.map (fun n => ⟨f n.student_id, n.priority⟩), s.popped.map f⟩

/-- The same operations with every inserted id replaced by its arrival number:
the first insertion carries `n`, the next `n + 1`, and so on. -/
def stampOps (n : Nat) : List QOp → List QOp
  | [] => []
  | .insert _ p :: ops => .insert (n : Int) p :: stampOps (n + 1) ops
  | .remove :: ops => .remove :: stampOps n ops

/-- The id that the insertion with arrival number `k` carries in `ops`. -/
def arrivalId (ops : List QOp) (k : Int) : Int := (insertedIds ops).getD k.toNat 0

/-- Priorities are non-decreasing from head to tail. -/
def Sorted (q : List node) : Prop := q.Pairwise (fun a b => a.priority ≤ b.priority)

/-- The dispatch order of a run: ids already popped, followed by the ids still
queued from head to tail. -/
def dispatch (s : QRun) : List Int := s.popped ++ s.queue.map node.student_id

/-! ### Reference model of the priority queue (from the specification) -/

/-- A reference entry `{ student_id, priority_value, arrival_seq }`. -/
structure RefEntry where
  student_id : Int
  priority_value : Int
  arrival_seq : Nat
deriving DecidableEq, Repr

/-- Lexicographic order `(priority_value asc, arrival_seq asc)`. -/
def refLE (x y : RefEntry) : Prop :=
  x.priority_value < y.priority_value
    ∨ (x.priority_value = y.priority_value ∧ x.arrival_seq ≤ y.arrival_seq)

instance refLE_decidable : DecidableRel refLE := fun x y =>
  inferInstanceAs (Decidable (x.priority_value < y.priority_value
    ∨ (x.priority_value = y.priority_value ∧ x.arrival_seq ≤ y.arrival_seq)))

/-- The reference sort by `(priority, arrival_seq)`. -/
def referenceSort (es : List RefEntry) : List RefEntry := es.insertionSort refLE

/-- Stamps `(id, priority)` pairs with consecutive arrival sequence numbers,
starting at `n`. -/
def stampFrom (n : Nat) : List (Int × Int) → List RefEntry
  | [] => []
  | (id, p) :: rest => ⟨id, p, n⟩ :: stampFrom (n + 1) rest

/-- The dispatch order the specification expects for a list of inserted
`(id, priority)` pairs: sort by `(priority, arrival_seq)`, read off the ids. -/
def referenceOrder (ins : List (Int × Int)) : List Int :=
  (referenceSort (stampFrom 0 ins)).map RefEntry.student_id

/-- The inserted `(id, priority)` pairs of an operation sequence, in order. -/
def insertedPairs : List QOp → List (Int × Int)
  | [] => []
  | .insert id p :: ops => (id, p) :: insertedPairs ops
  | .remove :: ops => insertedPairs ops

/-- The specification's `PriorityQueue`: the entries present, the insertion
counter, and the log of popped ids. -/
structure RefQueue where
  entries : List RefEntry
  seq : Nat
  popped : List Int
deriving DecidableEq, Repr

/-- Specification `insert(student_id, priority)`: the entry gets the next
arrival sequence number. -/
def RefQueue.insert (r : RefQueue) (id p : Int) : RefQueue :=
  { r with entries := r.entries ++ [⟨id, p, r.seq⟩], seq := r.seq + 1 }

/-- Specification `pop_min`: removes the `(priority, arrival_seq)`-least entry
present and logs its id; `none` on an empty queue. -/
def RefQueue.pop_min (r : RefQueue) : Option RefQueue :=
  match referenceSort r.entries with
  | [] => none
  | e :: _ => some { r with entries := r.entries.erase e, popped := r.popped ++ [e.student_id] }

/-- One operation on the reference queue. -/
def refStep (r : RefQueue) : QOp → Option RefQueue
  | .insert id p => some (r.insert id p)
  | .remove => r.pop_min

/-- Runs a sequence of operations on the reference queue. -/
def refRunFrom (r : RefQueue) : List QOp → Option RefQueue
  | [] => some r
  | op :: ops => (refStep r op).bind (fun r' => refRunFrom r' ops)

/-- Runs a sequence of operations on the empty reference queue. -/
def refRun (ops : List QOp) : Option RefQueue := refRunFrom ⟨[], 0, []⟩ ops

/-- The list cell that corresponds to a reference entry. -/
def RefEntry.toNode (e : RefEntry) : node := ⟨e.student_id, e.priority_value⟩

/-- Strict version of `refLE`. -/
def refLT (x y : RefEntry) : Prop :=
  x.priority_value < y.priority_value
    ∨ (x.priority_value = y.priority_value ∧ x.arrival_seq < y.arrival_seq)

instance refLE_total : IsTotal RefEntry refLE :=
  ⟨fun a b => by unfold refLE; omega⟩

instance refLE_trans : IsTrans RefEntry refLE :=
  ⟨fun a b c h1 h2 => by unfold refLE at *; omega⟩

instance refLT_antisymm : IsAntisymm RefEntry refLT :=
  ⟨fun a b h1 h2 => by unfold refLT at *; omega⟩

/-- No two entries share an arrival sequence number. -/
def DistinctSeq (es : List RefEntry) : Prop :=
  es.Pairwise (fun x y => x.arrival_seq ≠ y.arrival_seq)

/-- The simulation relation between the list of `csmc.c` and the reference
queue. -/
def Simulates (s : QRun) (r : RefQueue) : Prop :=
  r.popped = s.popped ∧ s.queue = (referenceSort r.entries).map RefEntry.toNode
    ∧ DistinctSeq r.entries ∧ ∀ e ∈ r.entries, e.arrival_seq < r.seq

/-! ### The threads of `csmc.c`

The program is embedded as a transition system.  A state holds the global
variables, the two lists, the semaphores (their counts) and, for every thread,
the point of its function it has reached.  One transition is one thread
running one lock-protected region (or one semaphore call) of its function:
the regions exclude each other through `chair_lock` and `queue_lock`, so no
thread observes another one halfway through a region, and in every state of
the model `chair_lock` is free.  The state taken as initial is the one `main`
has set up once all `sem_init` and `pthread_create` calls are done.  The C
`int` counters are embedded as `Int`. -/

/-- Points of `run_students` between which one transition runs. -/
inductive SPc where
  /-- Top of the loop (line 225): about to test the quota. -/
  | check
  /-- Quota met and `students_done` counted: about to post the coordinator (line 230). -/
  | notify
  /-- After `pthread_exit` (line 232). -/
  | done
  /-- Programming (line 237): about to look for a chair. -/
  | program
  /-- Seated and enqueued: about to post the coordinator (line 265). -/
  | seated
  /-- At `sem_wait(&s_info->sem)` (line 266). -/
  | waiting
  /-- Woken by a tutor (line 270): about to record the help. -/
  | tutored
deriving DecidableEq, Repr

/-- Points of `run_tutors` between which one transition runs. -/
inductive TPc where
  /-- At `sem_wait(&t_info->sem)` (line 345). -/
  | wait
  /-- Woken: about to run the termination check (line 346). -/
  | check
  /-- About to claim the head of the priority queue (line 357). -/
  | claim
  /-- About to release the chair of the claimed student (line 372). -/
  | release
  /-- About to wake the claimed student (line 380). -/
  | wake
  /-- Tutoring (line 384): about to count the session. -/
  | tutoring
  /-- About to reset `tutor_busy` and `my_student` (line 393). -/
  | reset
  /-- After `pthread_exit` (line 352). -/
  | done
deriving DecidableEq, Repr

/-- Points of `run_coordinator` between which one transition runs. -/
inductive CPc where
  /-- At `sem_wait(&student_to_coordinator)` (line 282). -/
  | wait
  /-- Woken: about to look at the arrival queue (line 283). -/
  | check
  /-- About to move the head of the arrival queue (line 304). -/
  | process
  /-- In the wake-up loop of line 290, about to post tutor `i`. -/
  | broadcast (i : Nat)
  /-- After `pthread_exit` (line 293). -/
  | done
deriving DecidableEq, Repr

/-- The record `struct student_info`; `thread` is where the student's thread
stands, `sem` the count of its semaphore, `my_tutor` an index into the tutor
array (`none` is `NULL`). -/
structure student_info where
  student_id : Int
  helps_received : Int
  thread : SPc
  sem : Nat
  my_tutor : Option Nat
deriving DecidableEq, Repr

/-- The record `struct tutor_info`; `my_student` is an index into the student
array (`none` is `NULL`). -/
structure tutor_info where
  tutor_id : Int
  tutor_busy : Int
  thread : TPc
  sem : Nat
  my_student : Option Nat
deriving DecidableEq, Repr

/-- The lines written by `printf`. -/
inductive Event where
  | no_chair (student_id : Int)
  | took_seat (student_id available_chairs : Int)
  | queued (student_id priority waiting_students total_requests : Int)
  | received_help (student_id tutor_id : Int)
  | tutored (student_id tutor_id students_tutored_now sessions_tutored : Int)
deriving DecidableEq, Repr

/-- The shared state of the program. -/
structure State where
  num_students : Int
  num_tutors : Int
  available_chairs : Int
  num_helps : Int
  waiting_students : Int
  total_requests : Int
  students_tutored_now : Int
  sessions_tutored : Int
  students_done : Int
  student : List student_info
  tutor : List tutor_info
  student_queue : List node
  priority_queue : List node
  student_to_coordinator : Nat
  coordinator : CPc
  output : List Event
deriving DecidableEq, Repr

/-- What a thread does when it is scheduled. -/
inductive Outcome where
  /-- The thread ran one region and the state is now `s`. -/
  | next (s : State)
  /-- The thread is blocked in `sem_wait` on a semaphore whose count is 0. -/
  | blocked
  /-- The thread has exited, or there is no such thread. -/
  | halted
  /-- The region dereferences `NULL` or indexes outside an array. -/
  | fault
deriving DecidableEq, Repr

/-- The threads. -/
inductive Thread where
  | student (i : Nat)
  | coordinator
  | tutor (j : Nat)
deriving DecidableEq, Repr

/-- The state `main` sets up for `./csmc N T C H`. -/
def init (N T C H : Int) : State where
  num_students := N
  num_tutors := T
  available_chairs := C
  num_helps := H
  waiting_students := 0
  total_requests := 0
  students_tutored_now := 0
  sessions_tutored := 0
  students_done := 0
  student := (List.range N.toNat).map (fun (i : Nat) => ⟨(i : Int) + 1, 0, .check, 0, none⟩)
  tutor := (List.range T.toNat).map (fun (j : Nat) => ⟨(j : Int) + 1, 0, .wait, 0, none⟩)
  student_queue := []
  priority_queue := []
  student_to_coordinator := 0
  coordinator := .wait
  output := []

/-- Lines 225-234 of `run_students`: the quota test under `chair_lock`. -/
def quota_check (s : State) (i : Nat) (st : student_info) : Outcome :=
  if st.helps_received - s.num_helps ≥ 0 then
    .next { s with
      students_done := s.students_done + 1
      student := s.student.set i { st with thread := .notify } }
  else
    .next { s with student := s.student.set i { st with thread := .program } }

/-- Lines 241-263 of `run_students`: the student looks for a chair and, when
there is one, sits down and adds itself to `student_queue` with priority 0. -/
def try_sit (s : State) (i : Nat) (st : student_info) : Outcome :=
  if s.available_chairs ≤ 0 then
    .next { s with
      output := s.output ++ [.no_chair st.student_id]
      student := s.student.set i { st with thread := .check } }
  else
    match enqueue s.student_queue st.student_id 0 with
    | none => .fault
    | some q =>
      .next { s with
        available_chairs := s.available_chairs - 1
        waiting_students := s.waiting_students + 1
        total_requests := s.total_requests + 1
        output := s.output ++ [.took_seat st.student_id (s.available_chairs - 1)]
        student_queue := q
        student := s.student.set i { st with thread := .seated } }

/-- Lines 272-276 of `run_students`: the help is recorded. -/
def record_help (s : State) (i : Nat) (st : student_info) : Outcome :=
  match st.my_tutor with
  | none => .fault
  | some j =>
    match s.tutor[j]? with
    | none => .fault
    | some t =>
      .next { s with
        output := s.output ++ [.received_help st.student_id t.tutor_id]
        student := s.student.set i
          { st with helps_received := st.helps_received + 1, my_tutor := none, thread := .check } }

/-- One transition of the thread of student `i` (`run_students`). -/
def run_students (s : State) (i : Nat) : Outcome :=
  match s.student[i]? with
  | none => .halted
  | some st =>
    match st.thread with
    | .check => quota_check s i st
    | .notify =>
      .next { s with
        student_to_coordinator := s.student_to_coordinator + 1
        student := s.student.set i { st with thread := .done } }
    | .done => .halted
    | .program => try_sit s i st
    | .seated =>
      .next { s with
        student_to_coordinator := s.student_to_coordinator + 1
        student := s.student.set i { st with thread := .waiting } }
    | .waiting =>
      if 0 < st.sem then
        .next { s with student := s.student.set i { st with sem := st.sem - 1, thread := .tutored } }
      else .blocked
    | .tutored => record_help s i st

/-- The `for` loop of lines 323-329: posts the semaphore of the first tutor
whose `tutor_busy` is 0; `none` when the loop ends with `posted == 0`. -/
def wake_idle : List tutor_info → Option (List tutor_info)
  | [] => none
  | t :: ts =>
    if t.tutor_busy = 0 then some ({ t with sem := t.sem + 1 } :: ts)
    else (wake_idle ts).map (fun ts' => t :: ts')

/-- Lines 322-331: the idle tutor selection; when no tutor is idle,
`tutor[0]` is posted (there must be one). -/
def signal_tutor (ts : List tutor_info) : Option (List tutor_info) :=
  match wake_idle ts with
  | some ts' => some ts'
  | none =>
    match ts with
    | [] => none
    | t :: rest => some ({ t with sem := t.sem + 1 } :: rest)

/-- The search of lines 308-309: the first student whose id is `s_id`. -/
def find_student (sts : List student_info) (s_id : Int) : Option student_info :=
  sts.find? (fun st => st.student_id == s_id)

/-- Lines 304-336 of `run_coordinator`: the head of `student_queue` moves to
`priority_queue` with the student's `helps_received` as priority, and one tutor
is signalled. -/
def transfer (s : State) : Outcome :=
  match peek s.student_queue with
  | none => .fault
  | some s_id =>
    match find_student s.student s_id with
    | none => .next { s with coordinator := .wait }
    | some st =>
      match enqueue s.priority_queue st.student_id st.helps_received,
          pop s.student_queue, signal_tutor s.tutor with
      | some pq, some sq, some ts =>
        .next { s with
          priority_queue := pq
          output := s.output ++
            [.queued st.student_id st.helps_received s.waiting_students s.total_requests]
          student_queue := sq
          tutor := ts
          coordinator := .wait }
      | _, _, _ => .fault

/-- One transition of the coordinator thread (`run_coordinator`). -/
def run_coordinator (s : State) : Outcome :=
  match s.coordinator with
  | .wait =>
    if 0 < s.student_to_coordinator then
      .next { s with
        student_to_coordinator := s.student_to_coordinator - 1
        coordinator := .check }
    else .blocked
  | .check =>
    if is_empty s.student_queue then
      if s.students_done - s.num_students ≥ 0 then .next { s with coordinator := .broadcast 0 }
      else .next { s with coordinator := .wait }
    else .next { s with coordinator := .process }
  | .process => transfer s
  | .broadcast i =>
    if (i : Int) < s.num_tutors then
      match s.tutor[i]? with
      | none => .fault
      | some t =>
        .next { s with
          tutor := s.tutor.set i { t with sem := t.sem + 1 }
          coordinator := .broadcast (i + 1) }
    else .next { s with coordinator := .done }
  | .done => .halted

/-- The loop of lines 362-366 (it has no `break`): `my_student` ends as the
last student whose id is `s_id`, or keeps its old value `cur`. -/
def assign_student (sts : List student_info) (s_id : Int) (i : Nat) (cur : Option Nat) :
    Option Nat :=
  match sts with
  | [] => cur
  | st :: rest => assign_student rest s_id (i + 1) (if st.student_id = s_id then some i else cur)

/-- Lines 346-355 of `run_tutors`: the termination check under `chair_lock`. -/
def termination_check (s : State) (j : Nat) (t : tutor_info) : Outcome :=
  if is_empty s.priority_queue then
    if s.students_done - s.num_students ≥ 0 then
      .next { s with tutor := s.tutor.set j { t with thread := .done } }
    else .next { s with tutor := s.tutor.set j { t with thread := .claim } }
  else .next { s with tutor := s.tutor.set j { t with thread := .claim } }

/-- Lines 357-370 of `run_tutors`: the tutor marks itself busy and claims the
head of `priority_queue`. -/
def claim_head (s : State) (j : Nat) (t : tutor_info) : Outcome :=
  match peek s.priority_queue with
  | none => .fault
  | some s_id =>
    match assign_student s.student s_id 0 t.my_student with
    | none => .fault
    | some k =>
      match s.student[k]?, pop s.priority_queue with
      | some st, some pq =>
        .next { s with
          student := s.student.set k { st with my_tutor := some j }
          tutor := s.tutor.set j
            { t with tutor_busy := 1, my_student := some k, thread := .release }
          priority_queue := pq }
      | _, _ => .fault

/-- Lines 372-378 of `run_tutors`: the chair of the claimed student is
released. -/
def leave_seat (s : State) (j : Nat) (t : tutor_info) : Outcome :=
  .next { s with
    students_tutored_now := s.students_tutored_now + 1
    available_chairs := s.available_chairs + 1
    waiting_students := s.waiting_students - 1
    tutor := s.tutor.set j { t with thread := .wake } }

/-- Line 380 of `run_tutors`: `sem_post(&t_info->my_student->sem)`. -/
def wake_student (s : State) (j : Nat) (t : tutor_info) : Outcome :=
  match t.my_student with
  | none => .fault
  | some k =>
    match s.student[k]? with
    | none => .fault
    | some st =>
      .next { s with
        student := s.student.set k { st with sem := st.sem + 1 }
        tutor := s.tutor.set j { t with thread := .tutoring } }

/-- Lines 386-391 of `run_tutors`: the session is counted. -/
def count_session (s : State) (j : Nat) (t : tutor_info) : Outcome :=
  match t.my_student with
  | none => .fault
  | some k =>
    match s.student[k]? with
    | none => .fault
    | some st =>
      .next { s with
        sessions_tutored := s.sessions_tutored + 1
        output := s.output ++
          [.tutored st.student_id t.tutor_id s.students_tutored_now (s.sessions_tutored + 1)]
        students_tutored_now := s.students_tutored_now - 1
        tutor := s.tutor.set j { t with thread := .reset } }

/-- One transition of the thread of tutor `j` (`run_tutors`). -/
def run_tutors (s : State) (j : Nat) : Outcome :=
  match s.tutor[j]? with
  | none => .halted
  | some t =>
    match t.thread with
    | .wait =>
      if 0 < t.sem then
        .next { s with tutor := s.tutor.set j { t with sem := t.sem - 1, thread := .check } }
      else .blocked
    | .check => termination_check s j t
    | .claim => claim_head s j t
    | .release => leave_seat s j t
    | .wake => wake_student s j t
    | .tutoring => count_session s j t
    | .reset =>
      .next { s with
        tutor := s.tutor.set j { t with tutor_busy := 0, my_student := none, thread := .wait } }
    | .done => .halted

/-- One transition of the program: the scheduled thread runs. -/
def step (s : State) : Thread → Outcome
  | .student i => run_students s i
  | .coordinator => run_coordinator s
  | .tutor j => run_tutors s j

/-- The states `./csmc N T C H` can reach. -/
inductive Reachable (N T C H : Int) : State → Prop where
  | init : Reachable N T C H (init N T C H)
  | step (s s' : State) (th : Thread) :
      Reachable N T C H s → step s th = .next s' → Reachable N T C H s'

/-- Runs the threads in the order of a schedule; `none` as soon as the
scheduled thread cannot run. -/
def run_schedule (s : State) : List Thread → Option State
  | [] => some s
  | th :: rest =>
    match step s th with
    | .next s' => run_schedule s' rest
    | _ => none

/-- The sum of `helps_received` over all students. -/
def helps_total (s : State) : Int := (s.student.map student_info.helps_received).sum

/-! ### Quantities the invariants speak about -/

/-- The number of tutors that have claimed a student and not yet released its
chair (between lines 370 and 372). -/
def releasing (ts : List tutor_info) : Int :=
  (ts.map (fun t => if t.thread = .release then (1 : Int) else 0)).sum

/-- The chair invariant of `./csmc N T C H`: chairs and waiting students add up
to `C`, and every waiting student sits in one of the two queues or has just
been claimed. -/
def ChairInv (C : Int) (s : State) : Prop :=
  s.available_chairs + s.waiting_students = C ∧ 0 ≤ s.available_chairs
    ∧ s.waiting_students
        = s.student_queue.length + s.priority_queue.length + releasing s.tutor

/-- What the quota allows for one student record: `helps_received` lies
between 0 and `H`, and is below `H` while the student is between the quota
test and the recording of its next help. -/
def StudentOk (H : Int) (st : student_info) : Prop :=
  0 ≤ st.helps_received ∧ st.helps_received ≤ H
    ∧ ((st.thread = .program ∨ st.thread = .seated ∨ st.thread = .waiting
          ∨ st.thread = .tutored) → st.helps_received < H)

/-- The quota invariant of `./csmc N T C H`. -/
def QuotaInv (H : Int) (s : State) : Prop :=
  s.num_helps = H ∧ ∀ st ∈ s.student, StudentOk H st

/-- What one transition of thread `th` may do to the record of student `i`:
`helps_received` stays, or grows by 1 when the student itself completes a loop
iteration (from the recording of the help back to the top of the loop); a
student that has left the loop for its exit stays there. -/
def HelpsStep (th : Thread) (i : Nat) (st st' : student_info) : Prop :=
  (st'.helps_received = st.helps_received
      ∨ (st'.helps_received = st.helps_received + 1 ∧ th = .student i
          ∧ st.thread = .tutored ∧ st'.thread = .check))
    ∧ ((st.thread = .notify ∨ st.thread = .done)
        → (st'.thread = .notify ∨ st'.thread = .done))

/-- The number of tutors that have woken their student and not yet counted the
session (between lines 380 and 388). -/
def tutoring_now (ts : List tutor_info) : Int :=
  (ts.map (fun t => if t.thread = .tutoring then (1 : Int) else 0)).sum

/-- The number of helps handed out and not yet recorded: posts on student
semaphores not yet consumed, plus students woken and not yet past line 273. -/
def woken (sts : List student_info) : Int :=
  (sts.map (fun st => (st.sem : Int) + (if st.thread = .tutored then 1 else 0))).sum

/-- The session accounting invariant. -/
def SessionInv (s : State) : Prop :=
  s.sessions_tutored + tutoring_now s.tutor = helps_total s + woken s.student

/-- The arrival invariant of `./csmc N T C H`: the student array keeps its ids
`1 .. N` and the tutor array its length; every cell of `student_queue` has
priority 0 and carries the id of a student; every cell of `priority_queue`
carries the id of a student. -/
def ArrivalInv (N T : Int) (s : State) : Prop :=
  s.student.map student_info.student_id
      = (List.range N.toNat).map (fun (i : Nat) => (i : Int) + 1)
    ∧ s.tutor.length = T.toNat
    ∧ (∀ n ∈ s.student_queue,
        n.priority = 0 ∧ n.student_id ∈ s.student.map student_info.student_id)
    ∧ (∀ n ∈ s.priority_queue, n.student_id ∈ s.student.map student_info.student_id)

/-- The number of tutors that hold a claimed student they have not yet woken
(between lines 370 and 380). -/
def holding (ts : List tutor_info) : Int :=
  (ts.map (fun t => if t.thread = .release ∨ t.thread = .wake then (1 : Int) else 0)).sum

/-- The sum of the counts of the student semaphores. -/
def student_sems (sts : List student_info) : Int :=
  (sts.map (fun st => (st.sem : Int))).sum

/-- The number of students that have taken a seat and not yet been woken
(between lines 263 and 266, the wait of line 266 included). -/
def seated_students (sts : List student_info) : Int :=
  (sts.map (fun st =>
    if st.thread = .seated ∨ st.thread = .waiting then (1 : Int) else 0)).sum

/-- The number of students that have left their loop (lines 228-232). -/
def leaving_students (sts : List student_info) : Int :=
  (sts.map (fun st =>
    if st.thread = .notify ∨ st.thread = .done then (1 : Int) else 0)).sum

/-- The wake-ups of tutors not yet turned into a `pop`: the counts of the tutor
semaphores plus the tutors between their `sem_wait` and their `pop`
(lines 345-368). -/
def wake_tokens (ts : List tutor_info) : Int :=
  (ts.map (fun t =>
    (t.sem : Int) + (if t.thread = .check ∨ t.thread = .claim then 1 else 0))).sum

/-- The number of tutors that have passed the termination check after a wake
and have not yet executed `pop` (between lines 355 and 368). -/
def claiming (ts : List tutor_info) : Int :=
  (ts.map (fun t => if t.thread = .claim then (1 : Int) else 0)).sum

/-- Whether the coordinator has begun its termination broadcast (lines 288-293). -/
def terminating : CPc → Bool
  | .broadcast _ => true
  | .done => true
  | _ => false

/-- The seat accounting of `./csmc N T C H`: every seated student is in one of
the two queues, held by a tutor, or has an unconsumed post on its semaphore;
and `students_done` counts the students that have left their loop. -/
def SeatInv (N : Int) (s : State) : Prop :=
  s.num_students = N
    ∧ (s.student_queue.length : Int) + s.priority_queue.length + holding s.tutor
        + student_sems s.student = seated_students s.student
    ∧ s.students_done = leaving_students s.student

/-- The wake accounting: until the termination broadcast there are exactly as
many pending tutor wake-ups as cells in `priority_queue`; from the broadcast on
`priority_queue` is empty, all students are done and no tutor is about to
claim. -/
def WakeInv (s : State) : Prop :=
  (terminating s.coordinator = false → wake_tokens s.tutor = s.priority_queue.length)
    ∧ (terminating s.coordinator = true →
        s.priority_queue = [] ∧ s.students_done - s.num_students ≥ 0
          ∧ claiming s.tutor = 0)

/-! ## Theorems -/

theorem push_walk_eq (start : node) (rest : List node) (t : node) :
    push_walk start rest t
      = start :: (rest.takeWhile (fun n => decide (n.priority ≤ t.priority))
          ++ t :: rest.dropWhile (fun n => decide (n.priority ≤ t.priority))) := by
  induction rest generalizing start with
  | nil => simp [push_walk]
  | cons nxt rest' ih =>
    by_cases h : nxt.priority ≤ t.priority
    · simp [push_walk, h, ih, List.takeWhile, List.dropWhile]
    · simp [push_walk, h, List.takeWhile, List.dropWhile]

/-- Closed form of an insertion: the new cell goes after the longest prefix of
cells whose priority is at most `p`. -/
theorem enqueue_eq (q : List node) (id p : Int) :
    enqueue q id p
      = some (q.takeWhile (fun n => decide (n.priority ≤ p))
          ++ ⟨id, p⟩ :: q.dropWhile (fun n => decide (n.priority ≤ p))) := by
  cases q with
  | nil => simp [enqueue, is_empty, new_node]
  | cons h rest =>
    by_cases hp : h.priority > p
    · have : ¬ h.priority ≤ p := not_le.mpr hp
      simp [enqueue, is_empty, push, hp, List.takeWhile, List.dropWhile, this]
    · have h2 : h.priority ≤ p := not_lt.mp hp
      simp [enqueue, is_empty, push, hp, push_walk_eq, List.takeWhile, List.dropWhile, h2]

theorem dropWhile_gt (p : Int) (q : List node) (hs : Sorted q) :
    ∀ n ∈ q.dropWhile (fun n => decide (n.priority ≤ p)), p < n.priority := by
  induction q with
  | nil => simp
  | cons h t ih =>
    have ht : Sorted t := (List.pairwise_cons.mp hs).2
    have hh := (List.pairwise_cons.mp hs).1
    by_cases hp : h.priority ≤ p
    · simpa [List.dropWhile, hp] using ih ht
    · intro n hn
      simp only [List.dropWhile, hp, decide_False, List.mem_cons] at hn
      rcases hn with rfl | hn
      · exact not_le.mp hp
      · exact lt_of_lt_of_le (not_le.mp hp) (hh n hn)

/-- An insertion into a sorted list splits it in two: cells of priority at
most `p` stay in front of the new cell, cells of larger priority behind. -/
theorem enqueue_split (q : List node) (id p : Int) (hs : Sorted q) :
    ∃ l1 l2, q = l1 ++ l2 ∧ enqueue q id p = some (l1 ++ ⟨id, p⟩ :: l2)
      ∧ (∀ n ∈ l1, n.priority ≤ p) ∧ (∀ n ∈ l2, p < n.priority) := by
  refine ⟨q.takeWhile (fun n => decide (n.priority ≤ p)),
    q.dropWhile (fun n => decide (n.priority ≤ p)),
    (List.takeWhile_append_dropWhile _ _).symm, enqueue_eq q id p, ?_, dropWhile_gt p q hs⟩
  intro n hn
  simpa using List.mem_takeWhile_imp hn

theorem sorted_insert_mid (l1 l2 : List node) (t : node) (hs : Sorted (l1 ++ l2))
    (h1 : ∀ n ∈ l1, n.priority ≤ t.priority) (h2 : ∀ n ∈ l2, t.priority < n.priority) :
    Sorted (l1 ++ t :: l2) := by
  unfold Sorted at *
  rw [List.pairwise_append] at hs ⊢
  refine ⟨hs.1, List.pairwise_cons.mpr ⟨fun n hn => le_of_lt (h2 n hn), hs.2.1⟩, ?_⟩
  intro a ha b hb
  rcases List.mem_cons.mp hb with rfl | hb
  · exact h1 a ha
  · exact hs.2.2 a ha b hb

theorem enqueue_ne_nil_eq_push (q : List node) (id p : Int) (hq : q ≠ []) :
    enqueue q id p = push q id p := by
  cases q with
  | nil => exact absurd rfl hq
  | cons h t => simp [enqueue, is_empty]

theorem qrunFrom_append (s : QRun) (o1 o2 : List QOp) :
    qrunFrom s (o1 ++ o2) = (qrunFrom s o1).bind (fun s' => qrunFrom s' o2) := by
  induction o1 generalizing s with
  | nil => simp [qrunFrom]
  | cons op o1 ih =>
    simp only [List.cons_append, qrunFrom]
    cases qstep s op with
    | none => simp
    | some s' => simpa using ih s'

/-- What one successful step does to the state. -/
theorem qstep_cases (s s' : QRun) (op : QOp) (h : qstep s op = some s') :
    (∃ id p, op = .insert id p ∧ s'.popped = s.popped ∧ enqueue s.queue id p = some s'.queue)
    ∨ (∃ hd, op = .remove ∧ s.queue = hd :: s'.queue ∧ s'.popped = s.popped ++ [hd.student_id]) := by
  cases op with
  | insert id p =>
    left
    simp only [qstep, Option.map_eq_some'] at h
    obtain ⟨q, hq, rfl⟩ := h
    exact ⟨id, p, rfl, rfl, hq⟩
  | remove =>
    right
    cases hq : s.queue with
    | nil => simp [qstep, hq, peek, pop] at h
    | cons hd tl =>
      simp only [qstep, hq, peek, pop, Option.some.injEq] at h
      subst h
      exact ⟨hd, rfl, rfl, rfl⟩

theorem qstep_sorted (s s' : QRun) (op : QOp) (h : qstep s op = some s')
    (hs : Sorted s.queue) : Sorted s'.queue := by
  rcases qstep_cases s s' op h with ⟨id, p, -, -, he⟩ | ⟨hd, -, hq, -⟩
  · obtain ⟨l1, l2, hq, he', h1, h2⟩ := enqueue_split s.queue id p hs
    rw [he] at he'
    rw [Option.some.inj he']
    exact sorted_insert_mid l1 l2 ⟨id, p⟩ (hq ▸ hs) h1 h2
  · rw [hq] at hs
    exact (List.pairwise_cons.mp hs).2

theorem qrunFrom_sorted (ops : List QOp) (s s' : QRun) (h : qrunFrom s ops = some s')
    (hs : Sorted s.queue) : Sorted s'.queue := by
  induction ops generalizing s with
  | nil => simp [qrunFrom] at h; exact h ▸ hs
  | cons op ops ih =>
    simp only [qrunFrom, Option.bind_eq_some] at h
    obtain ⟨s1, h1, h2⟩ := h
    exact ih s1 h2 (qstep_sorted s s1 op h1 hs)

theorem qrun_sorted (ops : List QOp) (s : QRun) (h : qrun ops = some s) : Sorted s.queue :=
  qrunFrom_sorted ops _ s h List.Pairwise.nil

/-- A step only ever adds ids to the dispatch order, keeping the old ones in
their relative order. -/
theorem qstep_dispatch_sublist (s s' : QRun) (op : QOp) (h : qstep s op = some s')
    (hs : Sorted s.queue) : (dispatch s).Sublist (dispatch s') := by
  rcases qstep_cases s s' op h with ⟨id, p, -, hp, he⟩ | ⟨hd, -, hq, hp⟩
  · obtain ⟨l1, l2, hq, he', -, -⟩ := enqueue_split s.queue id p hs
    rw [he] at he'
    simp only [dispatch, hp, hq, Option.some.inj he', List.map_append, List.map_cons]
    exact (List.Sublist.refl _).append
      ((List.Sublist.refl _).append (List.sublist_cons_self _ _))
  · simp [dispatch, hp, hq]

theorem qrunFrom_dispatch_sublist (ops : List QOp) (s s' : QRun)
    (h : qrunFrom s ops = some s') (hs : Sorted s.queue) :
    (dispatch s).Sublist (dispatch s') := by
  induction ops generalizing s with
  | nil => simp [qrunFrom] at h; exact h ▸ List.Sublist.refl _
  | cons op ops ih =>
    simp only [qrunFrom, Option.bind_eq_some] at h
    obtain ⟨s1, h1, h2⟩ := h
    exact (qstep_dispatch_sublist s s1 op h1 hs).trans (ih s1 h2 (qstep_sorted s s1 op h1 hs))

theorem qstep_dispatch_perm (s s' : QRun) (op : QOp) (h : qstep s op = some s')
    (hs : Sorted s.queue) : (dispatch s').Perm (dispatch s ++ insertedIds [op]) := by
  rcases qstep_cases s s' op h with ⟨id, p, rfl, hp, he⟩ | ⟨hd, rfl, hq, hp⟩
  · obtain ⟨l1, l2, hq, he', -, -⟩ := enqueue_split s.queue id p hs
    rw [he] at he'
    simp only [dispatch, hp, hq, Option.some.inj he', List.map_append, List.map_cons, insertedIds]
    rw [List.append_assoc, List.append_assoc]
    refine List.Perm.append_left _ (List.Perm.append_left _ ?_)
    exact List.perm_append_singleton _ _ |>.symm
  · simp [dispatch, hp, hq, insertedIds]

theorem insertedIds_append (o1 o2 : List QOp) :
    insertedIds (o1 ++ o2) = insertedIds o1 ++ insertedIds o2 := by
  induction o1 with
  | nil => rfl
  | cons op o1 ih => cases op <;> simp [insertedIds, ih]

theorem qrunFrom_dispatch_perm (ops : List QOp) (s s' : QRun)
    (h : qrunFrom s ops = some s') (hs : Sorted s.queue) :
    (dispatch s').Perm (dispatch s ++ insertedIds ops) := by
  induction ops generalizing s with
  | nil => simp [qrunFrom] at h; subst h; simp [insertedIds]
  | cons op ops ih =>
    simp only [qrunFrom, Option.bind_eq_some] at h
    obtain ⟨s1, h1, h2⟩ := h
    have e : op :: ops = [op] ++ ops := rfl
    rw [e, insertedIds_append, ← List.append_assoc]
    exact (ih s1 h2 (qstep_sorted s s1 op h1 hs)).trans
      ((qstep_dispatch_perm s s1 op h1 hs).append_right _)

theorem qrun_dispatch_perm (ops : List QOp) (s : QRun) (h : qrun ops = some s) :
    (dispatch s).Perm (insertedIds ops) := by
  simpa [dispatch] using qrunFrom_dispatch_perm ops _ s h List.Pairwise.nil

theorem qstep_mem_queue (s s' : QRun) (op : QOp) (h : qstep s op = some s')
    (n : node) (hn : n ∈ s'.queue) :
    n ∈ s.queue ∨ op = .insert n.student_id n.priority := by
  rcases qstep_cases s s' op h with ⟨id, p, rfl, -, he⟩ | ⟨hd, -, hq, -⟩
  · rw [enqueue_eq] at he
    rw [← Option.some.inj he] at hn
    rcases List.mem_append.mp hn with h1 | h1
    · exact Or.inl ((List.takeWhile_sublist _).subset h1)
    · rcases List.mem_cons.mp h1 with rfl | h2
      · exact Or.inr rfl
      · exact Or.inl ((List.dropWhile_sublist _).subset h2)
  · exact Or.inl (hq ▸ List.mem_cons_of_mem _ hn)

theorem qrunFrom_mem_queue (ops : List QOp) (s s' : QRun) (h : qrunFrom s ops = some s')
    (n : node) (hn : n ∈ s'.queue) :
    n ∈ s.queue ∨ QOp.insert n.student_id n.priority ∈ ops := by
  induction ops generalizing s with
  | nil => simp [qrunFrom] at h; exact Or.inl (h ▸ hn)
  | cons op ops ih =>
    simp only [qrunFrom, Option.bind_eq_some] at h
    obtain ⟨s1, h1, h2⟩ := h
    rcases ih s1 h2 with h3 | h3
    · rcases qstep_mem_queue s s1 op h1 n h3 with h4 | h4
      · exact Or.inl h4
      · exact Or.inr (h4 ▸ List.mem_cons_self _ _)
    · exact Or.inr (List.mem_cons_of_mem _ h3)

theorem mem_insertedIds (ops : List QOp) (a p : Int) (h : QOp.insert a p ∈ ops) :
    a ∈ insertedIds ops := by
  induction ops with
  | nil => simp at h
  | cons op ops ih =>
    rcases List.mem_cons.mp h with rfl | h'
    · simp [insertedIds]
    · cases op <;> simp [insertedIds, ih h']

/-- When no id is inserted twice, an id determines the priority it was inserted
with. -/
theorem insert_priority_unique (ops : List QOp) (a p p' : Int)
    (hnd : (insertedIds ops).Nodup) (h1 : QOp.insert a p ∈ ops)
    (h2 : QOp.insert a p' ∈ ops) : p = p' := by
  induction ops with
  | nil => simp at h1
  | cons op ops ih =>
    cases op with
    | remove =>
      simp only [List.mem_cons, reduceCtorEq, false_or] at h1 h2
      exact ih (by simpa [insertedIds] using hnd) h1 h2
    | insert id q =>
      simp only [insertedIds, List.nodup_cons] at hnd
      rcases List.mem_cons.mp h1 with e1 | h1' <;> rcases List.mem_cons.mp h2 with e2 | h2'
      · cases e1; cases e2; rfl
      · cases e1; exact absurd (mem_insertedIds ops a p' h2') hnd.1
      · cases e2; exact absurd (mem_insertedIds ops a p h1') hnd.1
      · exact ih hnd.2 h1' h2'

theorem pair_sublist_of_pairwise {α : Type} (R : α → α → Prop) (l : List α) (a b : α)
    (hl : l.Pairwise R) (ha : a ∈ l) (hb : b ∈ l) (hne : a ≠ b) (hR : ¬ R b a) :
    [a, b].Sublist l := by
  induction l with
  | nil => simp at ha
  | cons x t ih =>
    obtain ⟨hx, ht⟩ := List.pairwise_cons.mp hl
    rcases List.mem_cons.mp ha with rfl | ha' <;> rcases List.mem_cons.mp hb with rfl | hb'
    · exact absurd rfl hne
    · exact List.Sublist.cons₂ _ (List.singleton_sublist.mpr hb')
    · exact absurd (hx a ha') hR
    · exact List.Sublist.cons _ (ih ht ha' hb')

theorem pair_sublist_left {α : Type} (l r : List α) (a b : α)
    (h : [a, b].Sublist (l ++ r)) (hnd : (l ++ r).Nodup) (hb : b ∈ l) :
    [a, b].Sublist l := by
  obtain ⟨l1, l2, e, h1, h2⟩ := List.sublist_append_iff.mp h
  have hdis := (List.nodup_append.mp hnd).2.2
  have hbr : b ∉ r := fun hr => hdis hb hr
  match l1, l2, e with
  | [], _, e =>
    simp only [List.nil_append] at e
    subst e
    exact absurd (h2.subset (by simp)) hbr
  | [x], l2, e =>
    simp only [List.singleton_append, List.cons.injEq] at e
    obtain ⟨-, rfl⟩ := e
    exact absurd (h2.subset (by simp)) hbr
  | [x, y], l2, e =>
    simp only [List.cons_append, List.nil_append, List.cons.injEq, List.self_eq_append_right] at e
    obtain ⟨rfl, rfl, -⟩ := e
    exact h1
  | x :: y :: z :: l3, l2, e => simp at e

theorem pair_sublist_split {α : Type} (l : List α) (a b : α) (h : [a, b].Sublist l) :
    ∃ l1 l2 l3, l = l1 ++ a :: l2 ++ b :: l3 := by
  induction l with
  | nil => simp at h
  | cons x t ih =>
    cases h with
    | cons _ h' =>
      obtain ⟨l1, l2, l3, e⟩ := ih h'
      exact ⟨x :: l1, l2, l3, by simp [e]⟩
    | cons₂ _ h' =>
      obtain ⟨l2, l3, e⟩ := List.append_of_mem (List.singleton_sublist.mp h')
      exact ⟨[], l2, l3, by simp [e]⟩

/-- The order of two ids in the final dispatch order decides the order in
which they are popped. -/
theorem popped_order (s : QRun) (a b : Int) (h : [a, b].Sublist (dispatch s))
    (hnd : (dispatch s).Nodup) (hb : b ∈ s.popped) :
    ∃ l1 l2 l3, s.popped = l1 ++ a :: l2 ++ b :: l3 :=
  pair_sublist_split _ a b (pair_sublist_left _ _ a b h hnd hb)

theorem qstep_relabel (f : Int → Int) (s : QRun) (op : QOp) :
    qstep (s.relabel f) (op.relabel f) = (qstep s op).map (QRun.relabel f) := by
  cases op with
  | insert id p =>
    simp only [QOp.relabel, qstep, enqueue_eq, Option.map_some', QRun.relabel,
      List.takeWhile_map, List.dropWhile_map, List.map_append, List.map_cons]
    rfl
  | remove =>
    cases hq : s.queue with
    | nil => simp [QOp.relabel, qstep, QRun.relabel, hq, peek, pop]
    | cons h t => simp [QOp.relabel, qstep, QRun.relabel, hq, peek, pop]

/-- The list never looks at ids: renaming the ids of the operations renames
the ids of the run and changes nothing else. -/
theorem qrunFrom_relabel (f : Int → Int) (ops : List QOp) (s : QRun) :
    qrunFrom (s.relabel f) (ops.map (QOp.relabel f))
      = (qrunFrom s ops).map (QRun.relabel f) := by
  induction ops generalizing s with
  | nil => rfl
  | cons op ops ih =>
    simp only [List.map_cons, qrunFrom, qstep_relabel]
    cases qstep s op with
    | none => rfl
    | some s1 => simpa using ih s1

theorem insertedIds_stampOps (n : Nat) (ops : List QOp) :
    insertedIds (stampOps n ops)
      = (List.range' n (insertedIds ops).length).map (fun (k : Nat) => (k : Int)) := by
  induction ops generalizing n with
  | nil => rfl
  | cons op ops ih =>
    cases op with
    | insert id p =>
      simp only [stampOps, insertedIds, List.length_cons, List.range'_succ, List.map_cons, ih]
    | remove => simp only [stampOps, insertedIds, ih]

theorem insertedIds_stampOps_nodup (n : Nat) (ops : List QOp) :
    (insertedIds (stampOps n ops)).Nodup := by
  rw [insertedIds_stampOps]
  exact (List.nodup_range' n _).map Nat.cast_injective

theorem stampOps_append (n : Nat) (o1 o2 : List QOp) :
    stampOps n (o1 ++ o2) = stampOps n o1 ++ stampOps (n + (insertedIds o1).length) o2 := by
  induction o1 generalizing n with
  | nil => simp [stampOps, insertedIds]
  | cons op o1 ih =>
    cases op with
    | insert id p =>
      have e : n + ((insertedIds o1).length + 1) = n + 1 + (insertedIds o1).length := by omega
      show QOp.insert (n : Int) p :: stampOps (n + 1) (o1 ++ o2)
        = QOp.insert (n : Int) p :: stampOps (n + 1) o1
            ++ stampOps (n + ((insertedIds o1).length + 1)) o2
      rw [ih (n + 1), e]
      rfl
    | remove =>
      show QOp.remove :: stampOps n (o1 ++ o2)
        = QOp.remove :: stampOps n o1 ++ stampOps (n + (insertedIds o1).length) o2
      rw [ih n]
      rfl

/-- Putting the ids back onto the arrival numbers gives the operations back. -/
theorem stampOps_relabel (f : Int → Int) (ops : List QOp) (n : Nat)
    (hf : ∀ (j : Nat) (id : Int), (insertedIds ops)[j]? = some id → f ((n + j : Nat) : Int) = id) :
    (stampOps n ops).map (QOp.relabel f) = ops := by
  induction ops generalizing n with
  | nil => rfl
  | cons op ops ih =>
    cases op with
    | insert id p =>
      have h0 : f ((n : Nat) : Int) = id := by
        have := hf 0 id (by simp [insertedIds])
        simpa using this
      simp only [stampOps, List.map_cons, QOp.relabel, h0]
      rw [ih (n + 1)]
      intro j id' hj
      have := hf (j + 1) id' (by simpa [insertedIds] using hj)
      have e : n + 1 + j = n + (j + 1) := by omega
      rw [e]
      exact this
    | remove =>
      simp only [stampOps, List.map_cons, QOp.relabel]
      rw [ih n]
      intro j id' hj
      exact hf j id' (by simpa [insertedIds] using hj)

theorem arrivalId_append (ops ops' : List QOp) (j : Nat) (id : Int)
    (h : (insertedIds ops)[j]? = some id) :
    arrivalId (ops ++ ops') ((0 + j : Nat) : Int) = id := by
  have hj : j < (insertedIds ops).length := (List.getElem?_eq_some_iff.mp h).1
  simp only [arrivalId, Nat.zero_add, Int.toNat_ofNat, List.getD_eq_getElem?_getD,
    insertedIds_append, List.getElem?_append_left hj, h, Option.getD_some]

/-- A run with arbitrary ids is the image, under the id of each arrival, of the
run of the same operations on arrival numbers. -/
theorem qrun_stamp (f : Int → Int) (ops : List QOp) (s : QRun)
    (hf : ∀ (j : Nat) (id : Int), (insertedIds ops)[j]? = some id → f ((0 + j : Nat) : Int) = id)
    (h : qrun ops = some s) :
    ∃ t, qrun (stampOps 0 ops) = some t ∧ s = t.relabel f := by
  have hrel := qrunFrom_relabel f (stampOps 0 ops) ⟨[], []⟩
  rw [stampOps_relabel f ops 0 hf] at hrel
  have h0 : (QRun.relabel f ⟨[], []⟩) = ⟨[], []⟩ := rfl
  rw [h0] at hrel
  unfold qrun at h ⊢
  rw [h] at hrel
  cases ht : qrunFrom ⟨[], []⟩ (stampOps 0 ops) with
  | none => simp [ht] at hrel
  | some t =>
    rw [ht] at hrel
    simp only [Option.map_some', Option.some.injEq] at hrel
    exact ⟨t, rfl, hrel⟩

theorem insertedPairs_append (o1 o2 : List QOp) :
    insertedPairs (o1 ++ o2) = insertedPairs o1 ++ insertedPairs o2 := by
  induction o1 with
  | nil => rfl
  | cons op o1 ih => cases op <;> simp [insertedPairs, ih]

theorem insertedPairs_stampOps (n : Nat) (ops : List QOp) (i : Nat) :
    (insertedPairs (stampOps n ops))[i]?
      = ((insertedPairs ops)[i]?).map (fun x => (((n + i : Nat) : Int), x.2)) := by
  induction ops generalizing n i with
  | nil => simp [stampOps, insertedPairs]
  | cons op ops ih =>
    cases op with
    | insert id p =>
      cases i with
      | zero => simp [stampOps, insertedPairs]
      | succ i =>
        simp only [stampOps, insertedPairs, List.getElem?_cons_succ, ih (n + 1) i]
        have e : n + 1 + i = n + (i + 1) := by omega
        rw [e]
    | remove => simp only [stampOps, insertedPairs, ih n i]

/-- The operation sequence split at the insertion with arrival number `i`. -/
theorem split_at_arrival (ops : List QOp) (i : Nat) (x : Int × Int)
    (h : (insertedPairs ops)[i]? = some x) :
    ∃ o1 o2, ops = o1 ++ QOp.insert x.1 x.2 :: o2 ∧ (insertedPairs o1).length = i := by
  induction ops generalizing i with
  | nil => simp [insertedPairs] at h
  | cons op ops ih =>
    cases op with
    | insert id p =>
      cases i with
      | zero =>
        simp only [insertedPairs, List.getElem?_cons_zero, Option.some.injEq] at h
        subst h
        exact ⟨[], ops, rfl, rfl⟩
      | succ i =>
        simp only [insertedPairs, List.getElem?_cons_succ] at h
        obtain ⟨o1, o2, e, hl⟩ := ih i h
        exact ⟨QOp.insert id p :: o1, o2, by rw [e]; rfl, by simp [insertedPairs, hl]⟩
    | remove =>
      simp only [insertedPairs] at h
      obtain ⟨o1, o2, e, hl⟩ := ih i h
      exact ⟨QOp.remove :: o1, o2, by rw [e]; rfl, by simpa [insertedPairs] using hl⟩

/-- FCFS among equal priorities for runs in which no id is inserted twice: if
`(a, p)` is inserted before `(b, p)` and `b` has been popped, then `a` has been
popped before it. -/
theorem fcfs_distinct_ids (o1 o2 o3 : List QOp) (a b p : Int) (s : QRun)
    (hnd : (insertedIds (o1 ++ QOp.insert a p :: o2 ++ QOp.insert b p :: o3)).Nodup)
    (hrun : qrun (o1 ++ QOp.insert a p :: o2 ++ QOp.insert b p :: o3) = some s)
    (hb : b ∈ s.popped) :
    ∃ l1 l2 l3, s.popped = l1 ++ a :: l2 ++ b :: l3 := by
  have hnd' : (dispatch s).Nodup := (qrun_dispatch_perm _ s hrun).nodup_iff.mpr hnd
  refine popped_order s a b ?_ hnd' hb
  unfold qrun at hrun
  rw [qrunFrom_append] at hrun
  simp only [Option.bind_eq_some] at hrun
  obtain ⟨s1, hpre, hrest⟩ := hrun
  simp only [qrunFrom, Option.bind_eq_some] at hrest
  obtain ⟨s2, hstep, hpost⟩ := hrest
  have hs1 : Sorted s1.queue := qrun_sorted _ s1 hpre
  have hs2 := qstep_sorted _ _ _ hstep hs1
  refine List.Sublist.trans ?_ (qrunFrom_dispatch_sublist o3 s2 s hpost hs2)
  have ha1 : a ∈ dispatch s1 :=
    (qrun_dispatch_perm _ s1 hpre).mem_iff.mpr (by simp [insertedIds_append, insertedIds])
  rcases qstep_cases s1 s2 _ hstep with ⟨id, q, hop, hp, he⟩ | ⟨hd, hop, -, -⟩
  · cases hop
    obtain ⟨l1, l2, hq, he', -, h2⟩ := enqueue_split s1.queue b p hs1
    rw [he] at he'
    have hq2 := Option.some.inj he'
    have hmem : a ∈ s1.popped ++ l1.map node.student_id := by
      simp only [dispatch, hq, List.map_append, List.mem_append] at ha1 ⊢
      rcases ha1 with h | h | h
      · exact Or.inl h
      · exact Or.inr h
      · exfalso
        obtain ⟨n, hn, rfl⟩ := List.mem_map.mp h
        have hlt := h2 n hn
        have hnq : n ∈ s1.queue := hq ▸ List.mem_append_right _ hn
        rcases qrunFrom_mem_queue _ _ s1 hpre n hnq with h0 | h0
        · simp at h0
        · have e := insert_priority_unique _ n.student_id n.priority p hnd
            (List.mem_append_left _ h0) (by simp)
          omega
    simp only [dispatch, hp, hq2, List.map_append, List.map_cons, ← List.append_assoc]
    exact (List.singleton_sublist.mpr hmem).append
      (List.Sublist.cons₂ _ (List.nil_sublist _))
  · cases hop

/-- C1 (FCFS tie-breaking), for every sequence of insertions and removals
that runs from the empty queue, whatever ids it carries (an id may be inserted
many times).  Entries are told apart by their arrival number: `t` is the run
of the same operations with each inserted id replaced by its arrival number,
and the run `s` itself is `t` with every arrival number replaced by the id of
that arrival, so the `k`-th pop of `s` returns the id of arrival
`t.popped[k]`.  No arrival is popped twice, and if arrivals `i < j` have the
same priority and `j` has been popped, then `i` has been popped before it.
No coexistence assumption is needed: an entry already gone when the other
arrives was popped first anyway. -/
theorem fcfs_among_equal_priority (ops : List QOp) (s : QRun) (hrun : qrun ops = some s) :
    ∃ t, qrun (stampOps 0 ops) = some t ∧ s = t.relabel (arrivalId ops)
      ∧ t.popped.Nodup
      ∧ ∀ (i j : Nat) (a b p : Int), i < j →
          (insertedPairs ops)[i]? = some (a, p) → (insertedPairs ops)[j]? = some (b, p) →
          (j : Int) ∈ t.popped →
          ∃ l1 l2 l3, t.popped = l1 ++ (i : Int) :: l2 ++ (j : Int) :: l3 := by
  have hf : ∀ (j : Nat) (id : Int), (insertedIds ops)[j]? = some id →
      arrivalId ops ((0 + j : Nat) : Int) = id := by
    intro j id h
    have := arrivalId_append ops [] j id h
    simpa using this
  obtain ⟨t, ht, hs⟩ := qrun_stamp (arrivalId ops) ops s hf hrun
  have hnd := insertedIds_stampOps_nodup 0 ops
  have hndd : (dispatch t).Nodup := (qrun_dispatch_perm _ t ht).nodup_iff.mpr hnd
  refine ⟨t, ht, hs, (List.nodup_append.mp hndd).1, ?_⟩
  intro i j a b p hij hi hj hpop
  have hi' : (insertedPairs (stampOps 0 ops))[i]? = some ((i : Int), p) := by
    rw [insertedPairs_stampOps, hi]; simp
  have hj' : (insertedPairs (stampOps 0 ops))[j]? = some ((j : Int), p) := by
    rw [insertedPairs_stampOps, hj]; simp
  obtain ⟨o1, o2, e1, hl1⟩ := split_at_arrival _ i _ hi'
  have hj2 : (insertedPairs o2)[j - i - 1]? = some ((j : Int), p) := by
    rw [e1, insertedPairs_append, List.getElem?_append_right (by omega), hl1] at hj'
    have e : j - i = (j - i - 1) + 1 := by omega
    rw [e] at hj'
    simpa [insertedPairs] using hj'
  obtain ⟨o3, o4, e2, -⟩ := split_at_arrival o2 (j - i - 1) _ hj2
  have e : stampOps 0 ops
      = o1 ++ QOp.insert (i : Int) p :: o3 ++ QOp.insert (j : Int) p :: o4 := by
    rw [e1, e2]; simp
  rw [e] at ht hnd
  exact fcfs_distinct_ids o1 o3 o4 i j p t hnd ht hpop

/-- C1, at a run in which id `2` is inserted twice: arrival 0 is `(2, 0)`,
arrival 1 is `(1, 5)`, arrival 2 is `(2, 5)`.  The ids come out as `2, 1, 2`,
the arrivals as `0, 1, 2`: of the two entries of priority 5 the earlier one
is popped first. -/
theorem fcfs_among_equal_priority_witness :
    qrun [.insert 2 0, .remove, .insert 1 5, .insert 2 5, .remove, .remove]
        = some ⟨[], [2, 1, 2]⟩
      ∧ qrun (stampOps 0 [.insert 2 0, .remove, .insert 1 5, .insert 2 5, .remove, .remove])
        = some ⟨[], [0, 1, 2]⟩
      ∧ ∃ l1 l2 l3, ([0, 1, 2] : List Int) = l1 ++ 1 :: l2 ++ 2 :: l3 := by
  obtain ⟨t, ht, -, -, hf⟩ := fcfs_among_equal_priority
    [.insert 2 0, .remove, .insert 1 5, .insert 2 5, .remove, .remove] ⟨[], [2, 1, 2]⟩
    (by decide)
  have e : t = ⟨[], [0, 1, 2]⟩ := Option.some.inj (ht.symm.trans (by decide))
  subst e
  exact ⟨by decide, by decide, hf 1 2 1 2 5 (by decide) (by decide) (by decide) (by decide)⟩

/-- Strict priority for runs in which no id is inserted twice: if two cells are
queued together and the first has the smaller priority, then whenever the
second has been popped the first was popped before it. -/
theorem strict_priority_distinct_ids (pre post : List QOp) (s1 s2 : QRun) (a b : node)
    (hnd : (insertedIds (pre ++ post)).Nodup) (h1 : qrun pre = some s1)
    (h2 : qrun (pre ++ post) = some s2) (ha : a ∈ s1.queue) (hb : b ∈ s1.queue)
    (hlt : a.priority < b.priority) (hpop : b.student_id ∈ s2.popped) :
    ∃ l1 l2 l3, s2.popped = l1 ++ a.student_id :: l2 ++ b.student_id :: l3 := by
  have hnd' : (dispatch s2).Nodup := (qrun_dispatch_perm _ s2 h2).nodup_iff.mpr hnd
  refine popped_order s2 _ _ ?_ hnd' hpop
  have hs1 := qrun_sorted pre s1 h1
  unfold qrun at h1 h2
  rw [qrunFrom_append, h1] at h2
  have hsub := qrunFrom_dispatch_sublist post s1 s2 h2 hs1
  refine List.Sublist.trans ?_ hsub
  have hab : [a, b].Sublist s1.queue :=
    pair_sublist_of_pairwise _ s1.queue a b hs1 ha hb
      (fun e => by rw [e] at hlt; exact lt_irrefl _ hlt) (not_le.mpr hlt)
  exact (hab.map node.student_id).trans (List.sublist_append_right _ _)

/-- C2 (strict priority).  (1) `push` on a non-empty sorted list inserts the
new cell somewhere into the old list, leaving the old cells in their order,
and the result is sorted.  (2) After any run from the empty queue the list is
sorted, and `peek` returns the id of a queued cell whose priority is the
minimum over the queue.  (3) For every run, whatever ids it carries: let `t1`
and `t2` be the runs of `pre` and of `pre ++ post` with each inserted id
replaced by its arrival number (the runs `s1`, `s2` themselves are `t1`, `t2`
with the ids put back).  If two entries are queued together after `pre` and
the first has the smaller priority, then whenever the second has been popped
the first was popped before it. -/
theorem strict_priority :
    (∀ (q : List node) (id p : Int), q ≠ [] → Sorted q →
      ∃ l1 l2, q = l1 ++ l2 ∧ push q id p = some (l1 ++ ⟨id, p⟩ :: l2)
        ∧ Sorted (l1 ++ ⟨id, p⟩ :: l2))
    ∧ (∀ (ops : List QOp) (s : QRun), qrun ops = some s →
        Sorted s.queue ∧ ∀ i, peek s.queue = some i →
          ∃ h ∈ s.queue, h.student_id = i ∧ ∀ n ∈ s.queue, h.priority ≤ n.priority)
    ∧ (∀ (pre post : List QOp) (s1 s2 : QRun), qrun pre = some s1 →
        qrun (pre ++ post) = some s2 →
        ∃ t1 t2, qrun (stampOps 0 pre) = some t1
          ∧ qrun (stampOps 0 (pre ++ post)) = some t2
          ∧ s1 = t1.relabel (arrivalId (pre ++ post))
          ∧ s2 = t2.relabel (arrivalId (pre ++ post))
          ∧ ∀ a ∈ t1.queue, ∀ b ∈ t1.queue, a.priority < b.priority →
              b.student_id ∈ t2.popped →
              ∃ l1 l2 l3, t2.popped = l1 ++ a.student_id :: l2 ++ b.student_id :: l3) := by
  refine ⟨?_, ?_, ?_⟩
  · intro q id p hq hs
    obtain ⟨l1, l2, e, he, h1, h2⟩ := enqueue_split q id p hs
    exact ⟨l1, l2, e, (enqueue_ne_nil_eq_push q id p hq) ▸ he,
      sorted_insert_mid l1 l2 ⟨id, p⟩ (e ▸ hs) h1 h2⟩
  · intro ops s hrun
    have hs := qrun_sorted ops s hrun
    refine ⟨hs, ?_⟩
    intro i hi
    cases hq : s.queue with
    | nil => simp [hq, peek] at hi
    | cons h t =>
      rw [hq] at hs hi
      simp only [peek, Option.some.injEq] at hi
      refine ⟨h, List.mem_cons_self _ _, hi, ?_⟩
      intro n hn
      rcases List.mem_cons.mp hn with rfl | hn'
      · exact le_refl _
      · exact (List.pairwise_cons.mp hs).1 n hn'
  · intro pre post s1 s2 h1 h2
    have hf1 : ∀ (j : Nat) (id : Int), (insertedIds pre)[j]? = some id →
        arrivalId (pre ++ post) ((0 + j : Nat) : Int) = id :=
      fun j id h => arrivalId_append pre post j id h
    have hf2 : ∀ (j : Nat) (id : Int), (insertedIds (pre ++ post))[j]? = some id →
        arrivalId (pre ++ post) ((0 + j : Nat) : Int) = id := by
      intro j id h
      have := arrivalId_append (pre ++ post) [] j id h
      simpa using this
    obtain ⟨t1, ht1, hs1⟩ := qrun_stamp (arrivalId (pre ++ post)) pre s1 hf1 h1
    obtain ⟨t2, ht2, hs2⟩ := qrun_stamp (arrivalId (pre ++ post)) (pre ++ post) s2 hf2 h2
    refine ⟨t1, t2, ht1, ht2, hs1, hs2, ?_⟩
    intro a ha b hb hlt hpop
    have hnd := insertedIds_stampOps_nodup 0 (pre ++ post)
    rw [stampOps_append] at hnd ht2
    exact strict_priority_distinct_ids _ _ t1 t2 a b hnd ht1 ht2 ha hb hlt hpop

/-- C2, at concrete inputs: a `push` in the middle of a sorted list; the queue
head after a run; and a run in which student 1 is tutored once and comes back
with priority 1 (arrival 1), after which student 2 arrives with priority 0
(arrival 2) and is popped first. -/
theorem strict_priority_witness :
    (∃ l1 l2, ([⟨1, 0⟩, ⟨2, 2⟩] : List node) = l1 ++ l2
        ∧ push [⟨1, 0⟩, ⟨2, 2⟩] 3 1 = some (l1 ++ ⟨3, 1⟩ :: l2)
        ∧ Sorted (l1 ++ ⟨3, 1⟩ :: l2))
    ∧ (∃ h ∈ ([⟨1, 0⟩, ⟨2, 2⟩] : List node), h.student_id = 1
        ∧ ∀ n ∈ ([⟨1, 0⟩, ⟨2, 2⟩] : List node), h.priority ≤ n.priority)
    ∧ qrun [.insert 1 0, .remove, .insert 1 1, .insert 2 0, .remove, .remove]
        = some ⟨[], [1, 2, 1]⟩
    ∧ qrun (stampOps 0 [.insert 1 0, .remove, .insert 1 1, .insert 2 0, .remove, .remove])
        = some ⟨[], [0, 2, 1]⟩
    ∧ ∃ l1 l2 l3, ([0, 2, 1] : List Int) = l1 ++ 2 :: l2 ++ 1 :: l3 := by
  refine ⟨strict_priority.1 [⟨1, 0⟩, ⟨2, 2⟩] 3 1 (by decide) (by unfold Sorted; decide),
    (strict_priority.2.1 [.insert 2 2, .insert 1 0] ⟨[⟨1, 0⟩, ⟨2, 2⟩], []⟩ (by decide)).2 1
      (by decide), by decide, by decide, ?_⟩
  obtain ⟨t1, t2, ht1, ht2, -, -, hf⟩ := strict_priority.2.2
    [.insert 1 0, .remove, .insert 1 1, .insert 2 0] [.remove, .remove]
    ⟨[⟨2, 0⟩, ⟨1, 1⟩], [1]⟩ ⟨[], [1, 2, 1]⟩ (by decide) (by decide)
  have e1 : t1 = ⟨[⟨2, 0⟩, ⟨1, 1⟩], [0]⟩ := Option.some.inj (ht1.symm.trans (by decide))
  have e2 : t2 = ⟨[], [0, 2, 1]⟩ := Option.some.inj (ht2.symm.trans (by decide))
  subst e1 e2
  exact hf ⟨2, 0⟩ (by decide) ⟨1, 1⟩ (by decide) (by decide) (by decide)

/-! ### Refinement of the reference queue -/

theorem referenceSort_perm (es : List RefEntry) : (referenceSort es).Perm es :=
  List.perm_insertionSort refLE es

theorem distinctSeq_perm (l1 l2 : List RefEntry) (h : l1.Perm l2) (hd : DistinctSeq l2) :
    DistinctSeq l1 :=
  (h.pairwise_iff (fun hxy => Ne.symm hxy)).mpr hd

theorem referenceSort_sorted_lt (es : List RefEntry) (hd : DistinctSeq es) :
    (referenceSort es).Pairwise refLT := by
  have h1 : (referenceSort es).Pairwise refLE := List.sorted_insertionSort refLE es
  have h2 : DistinctSeq (referenceSort es) := distinctSeq_perm _ _ (referenceSort_perm es) hd
  refine (h1.and h2).imp ?_
  intro a b hab
  obtain ⟨h, hne⟩ := hab
  unfold refLE at h
  unfold refLT
  omega

/-- With distinct sequence numbers the reference sort is the only strictly
sorted arrangement of the entries. -/
theorem referenceSort_unique (es l : List RefEntry) (hd : DistinctSeq es)
    (hp : l.Perm es) (hl : l.Pairwise refLT) : referenceSort es = l :=
  List.eq_of_perm_of_sorted ((referenceSort_perm es).trans hp.symm)
    (referenceSort_sorted_lt es hd) hl

theorem dropWhile_key_gt {α : Type} (key : α → Int) (p : Int) (q : List α)
    (hs : q.Pairwise (fun a b => key a ≤ key b)) :
    ∀ n ∈ q.dropWhile (fun n => decide (key n ≤ p)), p < key n := by
  induction q with
  | nil => simp
  | cons h t ih =>
    obtain ⟨hh, ht⟩ := List.pairwise_cons.mp hs
    by_cases hp : key h ≤ p
    · simpa [List.dropWhile, hp] using ih ht
    · intro n hn
      simp only [List.dropWhile, hp, decide_False, List.mem_cons] at hn
      rcases hn with rfl | hn
      · exact not_le.mp hp
      · exact lt_of_lt_of_le (not_le.mp hp) (hh n hn)

/-- The reference sort after one more arrival, in the shape `push` produces. -/
theorem referenceSort_snoc (es : List RefEntry) (e : RefEntry) (hd : DistinctSeq es)
    (hnew : ∀ x ∈ es, x.arrival_seq < e.arrival_seq) :
    referenceSort (es ++ [e])
      = (referenceSort es).takeWhile (fun x => decide (x.priority_value ≤ e.priority_value))
          ++ e :: (referenceSort es).dropWhile
              (fun x => decide (x.priority_value ≤ e.priority_value)) := by
  have hS := referenceSort_sorted_lt es hd
  have hperm := referenceSort_perm es
  have hmem : ∀ x ∈ referenceSort es, x.arrival_seq < e.arrival_seq :=
    fun x hx => hnew x (hperm.subset hx)
  have hd' : DistinctSeq (es ++ [e]) := by
    unfold DistinctSeq at *
    rw [List.pairwise_append]
    refine ⟨hd, List.pairwise_singleton _ _, ?_⟩
    intro a ha b hb
    rw [List.mem_singleton.mp hb]
    exact Nat.ne_of_lt (hnew a ha)
  apply referenceSort_unique _ _ hd'
  · have h1 : ((referenceSort es).takeWhile
        (fun x => decide (x.priority_value ≤ e.priority_value))
          ++ e :: (referenceSort es).dropWhile
              (fun x => decide (x.priority_value ≤ e.priority_value))).Perm
        (e :: referenceSort es) := by
      refine List.perm_middle.trans (List.Perm.cons e ?_)
      rw [List.takeWhile_append_dropWhile]
    exact h1.trans ((List.Perm.cons e hperm).trans (List.perm_append_singleton e es).symm)
  · have hkey : (referenceSort es).Pairwise
        (fun a b => a.priority_value ≤ b.priority_value) :=
      hS.imp (fun {a b} h => by unfold refLT at h; omega)
    have hdrop := dropWhile_key_gt RefEntry.priority_value e.priority_value _ hkey
    rw [List.pairwise_append]
    refine ⟨hS.sublist (List.takeWhile_sublist _), ?_, ?_⟩
    · refine List.pairwise_cons.mpr ⟨?_, hS.sublist (List.dropWhile_sublist _)⟩
      intro y hy
      exact Or.inl (hdrop y hy)
    · intro a ha b hb
      have ha1 : a.priority_value ≤ e.priority_value := by
        simpa using List.mem_takeWhile_imp ha
      have ha2 := hmem a ((List.takeWhile_sublist _).subset ha)
      rcases List.mem_cons.mp hb with rfl | hb'
      · unfold refLT; omega
      · have hb1 := hdrop b hb'
        unfold refLT; omega

theorem referenceSort_erase_head (es : List RefEntry) (e : RefEntry) (t : List RefEntry)
    (hd : DistinctSeq es) (h : referenceSort es = e :: t) :
    referenceSort (es.erase e) = t := by
  have hS := referenceSort_sorted_lt es hd
  have hperm := referenceSort_perm es
  rw [h] at hS hperm
  apply referenceSort_unique
  · exact List.Pairwise.sublist (List.erase_sublist e es) hd
  · simpa using hperm.erase e
  · exact (List.pairwise_cons.mp hS).2

theorem simulates_step (s s' : QRun) (r : RefQueue) (op : QOp)
    (hsim : Simulates s r) (h : qstep s op = some s') :
    ∃ r', refStep r op = some r' ∧ Simulates s' r' := by
  obtain ⟨hpop, hq, hd, hseq⟩ := hsim
  rcases qstep_cases s s' op h with ⟨id, p, rfl, hp, he⟩ | ⟨hd', rfl, hq', hp⟩
  · refine ⟨r.insert id p, rfl, ?_, ?_, ?_, ?_⟩
    · simp [RefQueue.insert, hpop, hp]
    · rw [enqueue_eq, hq] at he
      rw [← Option.some.inj he]
      simp only [RefQueue.insert]
      rw [referenceSort_snoc r.entries ⟨id, p, r.seq⟩ hd hseq]
      simp [List.takeWhile_map, List.dropWhile_map, RefEntry.toNode, Function.comp_def]
    · simp only [RefQueue.insert, DistinctSeq]
      rw [List.pairwise_append]
      refine ⟨hd, List.pairwise_singleton _ _, ?_⟩
      intro a ha b hb
      rw [List.mem_singleton.mp hb]
      exact Nat.ne_of_lt (hseq a ha)
    · intro e he'
      simp only [RefQueue.insert, List.mem_append, List.mem_singleton] at he' ⊢
      rcases he' with h1 | rfl
      · exact Nat.lt_succ_of_lt (hseq e h1)
      · exact Nat.lt_succ_self _
  · rw [hq] at hq'
    cases hS : referenceSort r.entries with
    | nil => simp [hS] at hq'
    | cons e t =>
      rw [hS] at hq'
      simp only [List.map_cons, List.cons.injEq] at hq'
      obtain ⟨he, ht⟩ := hq'
      refine ⟨{ r with entries := r.entries.erase e, popped := r.popped ++ [e.student_id] },
        by simp [refStep, RefQueue.pop_min, hS], ?_, ?_, ?_, ?_⟩
      · simp [hp, hpop, ← he, RefEntry.toNode]
      · simp only
        rw [referenceSort_erase_head r.entries e t hd hS, ht]
      · exact List.Pairwise.sublist (List.erase_sublist e r.entries) hd
      · intro x hx
        exact hseq x ((List.erase_sublist e r.entries).subset hx)

theorem simulates_run (ops : List QOp) (s s' : QRun) (r : RefQueue)
    (hsim : Simulates s r) (h : qrunFrom s ops = some s') :
    ∃ r', refRunFrom r ops = some r' ∧ Simulates s' r' := by
  induction ops generalizing s r with
  | nil =>
    simp only [qrunFrom, Option.some.injEq] at h
    exact ⟨r, rfl, h ▸ hsim⟩
  | cons op ops ih =>
    simp only [qrunFrom, Option.bind_eq_some] at h
    obtain ⟨s1, h1, h2⟩ := h
    obtain ⟨r1, hr1, hsim1⟩ := simulates_step s s1 r op hsim h1
    obtain ⟨r', hr', hsim'⟩ := ih s1 r1 hsim1 h2
    exact ⟨r', by simp [refRunFrom, hr1, hr'], hsim'⟩

theorem simulates_init : Simulates ⟨[], []⟩ ⟨[], 0, []⟩ := by
  refine ⟨rfl, ?_, List.Pairwise.nil, ?_⟩
  · simp [referenceSort]
  · intro e he; simp at he

/-- Insertions never fail. -/
theorem qrunFrom_inserts (ins : List (Int × Int)) (s : QRun) :
    ∃ s', qrunFrom s (ins.map (fun x => QOp.insert x.1 x.2)) = some s' := by
  induction ins generalizing s with
  | nil => exact ⟨s, rfl⟩
  | cons x ins ih =>
    simp only [List.map_cons, qrunFrom, qstep, enqueue_eq, Option.map_some', Option.some_bind]
    exact ih _

theorem refRunFrom_inserts (ins : List (Int × Int)) (r : RefQueue) :
    refRunFrom r (ins.map (fun x => QOp.insert x.1 x.2))
      = some ⟨r.entries ++ stampFrom r.seq ins, r.seq + ins.length, r.popped⟩ := by
  induction ins generalizing r with
  | nil => simp [refRunFrom, stampFrom]
  | cons x ins ih =>
    obtain ⟨id, p⟩ := x
    simp only [List.map_cons, refRunFrom, refStep, Option.some_bind, ih, RefQueue.insert,
      stampFrom, List.length_cons, List.append_assoc, List.singleton_append]
    congr 2
    omega

theorem stampFrom_length (n : Nat) (ins : List (Int × Int)) :
    (stampFrom n ins).length = ins.length := by
  induction ins generalizing n with
  | nil => rfl
  | cons x ins ih => obtain ⟨id, p⟩ := x; simp [stampFrom, ih]

/-- Removals from a list that is long enough pop its cells from the head. -/
theorem qrunFrom_removes (k : Nat) (q : List node) (pl : List Int) (hk : k ≤ q.length) :
    qrunFrom ⟨q, pl⟩ (List.replicate k QOp.remove)
      = some ⟨q.drop k, pl ++ (q.take k).map node.student_id⟩ := by
  induction k generalizing q pl with
  | zero => simp [qrunFrom]
  | succ k ih =>
    cases q with
    | nil => simp at hk
    | cons h t =>
      simp only [List.replicate_succ, qrunFrom, qstep, peek, pop, Option.some_bind]
      rw [ih t _ (by simpa using hk)]
      simp

/-- C3 as stated fails: with an insertion after a removal the popped order
`[1, 2]` is not the reference sort `[2, 1]` of the inserted entries. -/
theorem reference_sort_counterexample :
    qrun [.insert 1 5, .remove, .insert 2 0, .remove] = some ⟨[], [1, 2]⟩
      ∧ referenceOrder (insertedPairs [.insert 1 5, .remove, .insert 2 0, .remove]) = [2, 1] := by
  decide

/-- C3, amended.  (1) For any interleaving of insertions and removals that
`csmc.c` can run from the empty queue, the reference queue (whose `pop_min`
removes the `(priority, arrival_seq)`-least entry present) runs it too and
pops the same ids in the same order, and the list of `csmc.c` is the reference
sort of the entries present.  (2) When no insertion follows a removal, the
run succeeds and the `k` popped ids are the first `k` ids of the reference
sort of all inserted entries by `(priority, arrival_seq)`. -/
theorem reference_queue_refinement :
    (∀ (ops : List QOp) (s : QRun), qrun ops = some s →
        ∃ r, refRun ops = some r ∧ r.popped = s.popped
          ∧ s.queue = (referenceSort r.entries).map RefEntry.toNode)
    ∧ (∀ (ins : List (Int × Int)) (k : Nat), k ≤ ins.length →
        ∃ s, qrun (ins.map (fun x => QOp.insert x.1 x.2) ++ List.replicate k QOp.remove)
              = some s
          ∧ s.popped = (referenceOrder ins).take k) := by
  constructor
  · intro ops s h
    obtain ⟨r, hr, hsim⟩ := simulates_run ops _ s _ simulates_init h
    exact ⟨r, hr, hsim.1, hsim.2.1⟩
  · intro ins k hk
    obtain ⟨s0, h0⟩ := qrunFrom_inserts ins ⟨[], []⟩
    obtain ⟨r, hr, hsim⟩ := simulates_run _ _ s0 _ simulates_init h0
    rw [refRunFrom_inserts] at hr
    have hr' := Option.some.inj hr
    obtain ⟨hpop, hq, -, -⟩ := hsim
    rw [← hr'] at hpop hq
    simp only [List.nil_append] at hpop hq
    have hlen : s0.queue.length = ins.length := by
      rw [hq, List.length_map, (referenceSort_perm _).length_eq, stampFrom_length]
    refine ⟨⟨s0.queue.drop k, s0.popped ++ (s0.queue.take k).map node.student_id⟩, ?_, ?_⟩
    · unfold qrun
      rw [qrunFrom_append, h0]
      exact qrunFrom_removes k s0.queue s0.popped (hlen ▸ hk)
    · simp only [← hpop, List.nil_append, hq, referenceOrder, List.map_take, List.map_map]
      rfl

/-- C3 amended, at concrete runs: an interleaving matched by the reference
queue, and four insertions followed by three removals. -/
theorem reference_queue_refinement_witness :
    (∃ r, refRun [.insert 1 5, .remove, .insert 2 0, .remove] = some r
        ∧ r.popped = [1, 2] ∧ ([] : List node) = (referenceSort r.entries).map RefEntry.toNode)
    ∧ ∃ s, qrun [.insert 1 5, .insert 2 0, .insert 3 5, .insert 4 0, .remove, .remove, .remove]
          = some s ∧ s.popped = [2, 4, 1] :=
  ⟨reference_queue_refinement.1 [.insert 1 5, .remove, .insert 2 0, .remove] ⟨[], [1, 2]⟩
      (by decide),
   reference_queue_refinement.2 [(1, 5), (2, 0), (3, 5), (4, 0)] 3 (by decide)⟩

/-! ### Single regions of the threads -/

/-- C4 (`try_sit`).  A student thread standing before its seat-taking region:
with a free chair it is admitted (it goes on to notify the coordinator),
`available_chairs` drops by 1, `waiting_students` and `total_requests` grow by
1, the student is enqueued with priority 0 and the seat event reports the new
`available_chairs`; without a free chair it is rejected (back to the top of
its loop) and the counters and the arrival queue are unchanged. -/
theorem try_sit_contract (s : State) (i : Nat) (st : student_info)
    (hst : s.student[i]? = some st) (hpc : st.thread = .program) :
    (0 < s.available_chairs →
      ∃ s', step s (.student i) = .next s'
        ∧ s'.student = s.student.set i { st with thread := .seated }
        ∧ s'.available_chairs = s.available_chairs - 1
        ∧ s'.waiting_students = s.waiting_students + 1
        ∧ s'.total_requests = s.total_requests + 1
        ∧ enqueue s.student_queue st.student_id 0 = some s'.student_queue
        ∧ s'.output = s.output ++ [.took_seat st.student_id s'.available_chairs])
    ∧ (¬ 0 < s.available_chairs →
      ∃ s', step s (.student i) = .next s'
        ∧ s'.student = s.student.set i { st with thread := .check }
        ∧ s'.available_chairs = s.available_chairs
        ∧ s'.waiting_students = s.waiting_students
        ∧ s'.total_requests = s.total_requests
        ∧ s'.student_queue = s.student_queue
        ∧ s'.output = s.output ++ [.no_chair st.student_id]) := by
  constructor
  · intro h
    have h' : ¬ s.available_chairs ≤ 0 := not_le.mpr h
    simp only [step, run_students, hst, hpc, try_sit, h', if_false, enqueue_eq]
    exact ⟨_, rfl, rfl, rfl, rfl, rfl, rfl, rfl⟩
  · intro h
    have h' : s.available_chairs ≤ 0 := not_lt.mp h
    simp only [step, run_students, hst, hpc, try_sit, h', if_true]
    exact ⟨_, rfl, rfl, rfl, rfl, rfl, rfl, rfl⟩

/-- C4, at concrete states: student 1 takes the only chair of `./csmc 1 1 1 1`;
with no chair left it is turned away. -/
theorem try_sit_contract_witness :
    (∃ s', step { init 1 1 1 1 with student := [⟨1, 0, .program, 0, none⟩] } (.student 0)
          = .next s'
        ∧ s'.available_chairs = 0 ∧ s'.waiting_students = 1 ∧ s'.total_requests = 1
        ∧ s'.student_queue = [⟨1, 0⟩] ∧ s'.output = [.took_seat 1 0])
    ∧ (∃ s', step { init 1 1 0 1 with student := [⟨1, 0, .program, 0, none⟩] } (.student 0)
          = .next s'
        ∧ s'.available_chairs = 0 ∧ s'.waiting_students = 0 ∧ s'.total_requests = 0
        ∧ s'.student_queue = [] ∧ s'.output = [.no_chair 1]) := by
  obtain ⟨s1, h1, -, a1, a2, a3, a4, a5⟩ :=
    (try_sit_contract { init 1 1 1 1 with student := [⟨1, 0, .program, 0, none⟩] } 0
      ⟨1, 0, .program, 0, none⟩ rfl rfl).1 (by decide)
  obtain ⟨s2, h2, -, b1, b2, b3, b4, b5⟩ :=
    (try_sit_contract { init 1 1 0 1 with student := [⟨1, 0, .program, 0, none⟩] } 0
      ⟨1, 0, .program, 0, none⟩ rfl rfl).2 (by decide)
  refine ⟨⟨s1, h1, a1, a2, a3, ?_, ?_⟩, ⟨s2, h2, b1, b2, b3, b4, b5⟩⟩
  · exact (Option.some.inj a4).symm
  · rw [a5, a1]; rfl

theorem wake_idle_none (ts : List tutor_info) (h : wake_idle ts = none) :
    ∀ t ∈ ts, t.tutor_busy ≠ 0 := by
  induction ts with
  | nil => simp
  | cons t ts ih =>
    by_cases hb : t.tutor_busy = 0
    · simp [wake_idle, hb] at h
    · simp only [wake_idle, hb, if_false, Option.map_eq_none'] at h
      intro t' ht'
      rcases List.mem_cons.mp ht' with rfl | h'
      · exact hb
      · exact ih h t' h'

theorem wake_idle_some (ts ts' : List tutor_info) (h : wake_idle ts = some ts') :
    ∃ j t, ts[j]? = some t ∧ t.tutor_busy = 0
      ∧ (∀ k t', k < j → ts[k]? = some t' → t'.tutor_busy ≠ 0)
      ∧ ts' = ts.set j { t with sem := t.sem + 1 } := by
  induction ts generalizing ts' with
  | nil => simp [wake_idle] at h
  | cons t ts ih =>
    by_cases hb : t.tutor_busy = 0
    · rw [wake_idle, if_pos hb] at h
      exact ⟨0, t, by simp, hb, fun k t' hk => absurd hk (Nat.not_lt_zero k),
        by simp [← Option.some.inj h]⟩
    · simp only [wake_idle, hb, if_false, Option.map_eq_some'] at h
      obtain ⟨ts1, h1, rfl⟩ := h
      obtain ⟨j, t1, hj, hb1, hlow, rfl⟩ := ih ts1 h1
      refine ⟨j + 1, t1, by simpa using hj, hb1, ?_, by simp⟩
      intro k t' hk hk'
      cases k with
      | zero =>
        simp only [List.getElem?_cons_zero, Option.some.injEq] at hk'
        exact hk' ▸ hb
      | succ k => exact hlow k t' (Nat.lt_of_succ_lt_succ hk) (by simpa using hk')

/-- C8 (tutor signalling).  With at least one tutor the idle tutor selection
posts exactly one semaphore: the list of tutors changes at one index `j` only,
where the count grows by 1; `j` is the lowest index whose `tutor_busy` is 0,
or 0 when no tutor has `tutor_busy = 0`.  Every arrival the coordinator
processes signals the tutors in exactly this way. -/
theorem signal_tutor_contract :
    (∀ ts : List tutor_info, ts ≠ [] →
      ∃ j t, ts[j]? = some t
        ∧ signal_tutor ts = some (ts.set j { t with sem := t.sem + 1 })
        ∧ ((t.tutor_busy = 0 ∧ ∀ k t', k < j → ts[k]? = some t' → t'.tutor_busy ≠ 0)
            ∨ (j = 0 ∧ ∀ t' ∈ ts, t'.tutor_busy ≠ 0)))
    ∧ (∀ (s s' : State) (s_id : Int) (st : student_info),
        s.coordinator = .process → peek s.student_queue = some s_id →
        find_student s.student s_id = some st → step s .coordinator = .next s' →
        signal_tutor s.tutor = some s'.tutor) := by
  constructor
  · intro ts hne
    cases hw : wake_idle ts with
    | some ts' =>
      obtain ⟨j, t, hj, hb, hlow, rfl⟩ := wake_idle_some ts ts' hw
      exact ⟨j, t, hj, by simp [signal_tutor, hw], Or.inl ⟨hb, hlow⟩⟩
    | none =>
      cases ts with
      | nil => exact absurd rfl hne
      | cons t rest =>
        exact ⟨0, t, by simp, by simp [signal_tutor, hw], Or.inr ⟨rfl, wake_idle_none _ hw⟩⟩
  · intro s s' s_id st hpc hpeek hfind hstep
    simp only [step, run_coordinator, hpc, transfer, hpeek, hfind] at hstep
    cases h1 : enqueue s.priority_queue st.student_id st.helps_received <;>
      cases h2 : pop s.student_queue <;> cases h3 : signal_tutor s.tutor <;>
      simp only [h1, h2, h3, reduceCtorEq, Outcome.next.injEq] at hstep
    rw [← hstep]

/-- C8, at concrete tutor arrays: tutor 2 is the first idle one; with every
tutor busy, tutor 1 is posted. -/
theorem signal_tutor_contract_witness :
    signal_tutor [⟨1, 1, .tutoring, 0, some 0⟩, ⟨2, 0, .wait, 0, none⟩, ⟨3, 0, .wait, 0, none⟩]
        = some [⟨1, 1, .tutoring, 0, some 0⟩, ⟨2, 0, .wait, 1, none⟩, ⟨3, 0, .wait, 0, none⟩]
    ∧ signal_tutor [⟨1, 1, .tutoring, 0, some 0⟩, ⟨2, 1, .wake, 0, some 1⟩]
        = some [⟨1, 1, .tutoring, 1, some 0⟩, ⟨2, 1, .wake, 0, some 1⟩]
    ∧ ∃ j t, ([⟨1, 1, .tutoring, 0, some 0⟩, ⟨2, 1, .wake, 0, some 1⟩] : List tutor_info)[j]?
          = some t
        ∧ signal_tutor [⟨1, 1, .tutoring, 0, some 0⟩, ⟨2, 1, .wake, 0, some 1⟩]
          = some (([⟨1, 1, .tutoring, 0, some 0⟩, ⟨2, 1, .wake, 0, some 1⟩] :
              List tutor_info).set j { t with sem := t.sem + 1 }) := by
  refine ⟨by decide, by decide, ?_⟩
  obtain ⟨j, t, h1, h2, -⟩ := signal_tutor_contract.1
    [⟨1, 1, .tutoring, 0, some 0⟩, ⟨2, 1, .wake, 0, some 1⟩] (by decide)
  exact ⟨j, t, h1, h2⟩

/-- The termination check of a tutor (lines 346-355) that finds the priority
queue empty, at any state: with `students_done >= num_students` the tutor
exits; otherwise it leaves the check for the claim region, since `run_tutors`
has no branch that returns to the semaphore, and the claim region then meets
`peek` on the empty list.  The check changes nothing but the tutor's position.
By `empty_queue_wake_is_termination` only the first case occurs in a run. -/
theorem tutor_empty_queue_wake (s : State) (j : Nat) (t : tutor_info)
    (ht : s.tutor[j]? = some t) (hpc : t.thread = .check) (hq : s.priority_queue = []) :
    (s.students_done - s.num_students ≥ 0 →
      step s (.tutor j) = .next { s with tutor := s.tutor.set j { t with thread := .done } })
    ∧ (s.students_done < s.num_students →
      step s (.tutor j) = .next { s with tutor := s.tutor.set j { t with thread := .claim } }
      ∧ step { s with tutor := s.tutor.set j { t with thread := .claim } } (.tutor j)
          = .fault) := by
  have hj : j < s.tutor.length := by
    rcases List.getElem?_eq_some_iff.mp ht with ⟨h, -⟩
    exact h
  constructor
  · intro h
    simp [step, run_tutors, ht, hpc, termination_check, hq, is_empty, h]
  · intro h
    have h' : ¬ (s.students_done - s.num_students ≥ 0) := by omega
    refine ⟨by simp [step, run_tutors, ht, hpc, termination_check, hq, is_empty, h], ?_⟩
    simp [step, run_tutors, hj, claim_head, hq, peek]

/-! ### Invariants of the reachable states -/

theorem sum_map_set {α : Type} (f : α → Int) (l : List α) (i : Nat) (old a : α)
    (h : l[i]? = some old) :
    ((l.set i a).map f).sum = (l.map f).sum - f old + f a := by
  induction l generalizing i with
  | nil => simp at h
  | cons x xs ih =>
    cases i with
    | zero =>
      simp only [List.getElem?_cons_zero, Option.some.injEq] at h
      subst h
      simp only [List.set_cons_zero, List.map_cons, List.sum_cons]
      omega
    | succ i =>
      simp only [List.getElem?_cons_succ] at h
      simp only [List.set_cons_succ, List.map_cons, List.sum_cons, ih i h]
      omega

theorem releasing_set (ts : List tutor_info) (j : Nat) (t t' : tutor_info)
    (h : ts[j]? = some t) :
    releasing (ts.set j t')
      = releasing ts - (if t.thread = .release then (1 : Int) else 0)
          + (if t'.thread = .release then (1 : Int) else 0) :=
  sum_map_set _ ts j t t' h

theorem signal_tutor_set (ts ts' : List tutor_info) (h : signal_tutor ts = some ts') :
    ∃ j t, ts[j]? = some t ∧ ts' = ts.set j { t with sem := t.sem + 1 }
      ∧ ((t.tutor_busy = 0 ∧ ∀ k t', k < j → ts[k]? = some t' → t'.tutor_busy ≠ 0)
          ∨ (j = 0 ∧ ∀ t' ∈ ts, t'.tutor_busy ≠ 0)) := by
  cases hw : wake_idle ts with
  | some ts1 =>
    obtain ⟨j, t, hj, hb, hlow, rfl⟩ := wake_idle_some ts ts1 hw
    simp only [signal_tutor, hw, Option.some.injEq] at h
    exact ⟨j, t, hj, h.symm, Or.inl ⟨hb, hlow⟩⟩
  | none =>
    cases ts with
    | nil => simp [signal_tutor, hw] at h
    | cons t rest =>
      simp only [signal_tutor, hw, Option.some.injEq] at h
      exact ⟨0, t, by simp, by simp [← h], Or.inr ⟨rfl, wake_idle_none _ hw⟩⟩

theorem enqueue_length (q q' : List node) (id p : Int) (h : enqueue q id p = some q') :
    q'.length = q.length + 1 := by
  rw [enqueue_eq] at h
  rw [← Option.some.inj h, List.length_append, List.length_cons]
  have := congrArg List.length (List.takeWhile_append_dropWhile
    (fun n : node => decide (n.priority ≤ p)) q)
  rw [List.length_append] at this
  omega

theorem pop_length (q q' : List node) (h : pop q = some q') : q.length = q'.length + 1 := by
  cases q with
  | nil => simp [pop] at h
  | cons x t => simp only [pop, Option.some.injEq] at h; simp [h]

theorem chairInv_students (C : Int) (s s' : State) (i : Nat) (hinv : ChairInv C s)
    (h : run_students s i = .next s') : ChairInv C s' := by
  unfold run_students at h
  split at h
  · cases h
  · rename_i st hst
    split at h
    · unfold quota_check at h
      split at h <;> (cases h; exact hinv)
    · cases h; exact hinv
    · cases h
    · unfold try_sit at h
      split at h
      · cases h; exact hinv
      · rename_i hc
        split at h
        · cases h
        · rename_i q hq
          cases h
          obtain ⟨h1, h2, h3⟩ := hinv
          have hl := enqueue_length _ _ _ _ hq
          refine ⟨?_, ?_, ?_⟩ <;> simp only [hl] <;> push_cast <;> omega
    · cases h; exact hinv
    · split at h
      · cases h; exact hinv
      · cases h
    · unfold record_help at h
      split at h
      · cases h
      · split at h
        · cases h
        · cases h; exact hinv

theorem chairInv_coordinator (C : Int) (s s' : State) (hinv : ChairInv C s)
    (h : run_coordinator s = .next s') : ChairInv C s' := by
  unfold run_coordinator at h
  split at h
  · split at h
    · cases h; exact hinv
    · cases h
  · split at h
    · split at h <;> (cases h; exact hinv)
    · cases h; exact hinv
  · unfold transfer at h
    split at h
    · cases h
    · split at h
      · cases h; exact hinv
      · rename_i st hst
        split at h
        · rename_i pq sq ts hpq hsq hts
          cases h
          obtain ⟨h1, h2, h3⟩ := hinv
          have hl1 := enqueue_length _ _ _ _ hpq
          have hl2 := pop_length _ _ hsq
          obtain ⟨j, t, hj, rfl, -⟩ := signal_tutor_set _ _ hts
          refine ⟨h1, h2, ?_⟩
          simp only [hl1, releasing_set _ j t _ hj]
          rw [hl2] at h3
          push_cast at h3 ⊢
          omega
        · cases h
  · split at h
    · split at h
      · cases h
      · rename_i t ht
        cases h
        obtain ⟨h1, h2, h3⟩ := hinv
        refine ⟨h1, h2, ?_⟩
        simp only [releasing_set _ _ t _ ht]
        omega
    · cases h; exact hinv
  · cases h

theorem chairInv_tutors (C : Int) (s s' : State) (j : Nat) (hinv : ChairInv C s)
    (h : run_tutors s j = .next s') : ChairInv C s' := by
  obtain ⟨h1, h2, h3⟩ := hinv
  unfold run_tutors at h
  split at h
  · cases h
  · rename_i t ht
    split at h
    · rename_i hpc
      split at h
      · cases h
        refine ⟨h1, h2, ?_⟩
        simp only [releasing_set _ _ t _ ht, hpc]
        simpa using h3
      · cases h
    · rename_i hpc
      unfold termination_check at h
      split at h
      · split at h <;>
        · cases h
          refine ⟨h1, h2, ?_⟩
          simp only [releasing_set _ _ t _ ht, hpc]
          simpa using h3
      · cases h
        refine ⟨h1, h2, ?_⟩
        simp only [releasing_set _ _ t _ ht, hpc]
        simpa using h3
    · rename_i hpc
      unfold claim_head at h
      split at h
      · cases h
      · split at h
        · cases h
        · split at h
          · rename_i st pq hst hpq
            cases h
            have hl := pop_length _ _ hpq
            refine ⟨h1, h2, ?_⟩
            simp only [releasing_set _ _ t _ ht, hpc]
            rw [hl] at h3
            push_cast at h3 ⊢
            simp
            omega
          · cases h
    · rename_i hpc
      unfold leave_seat at h
      cases h
      refine ⟨?_, ?_, ?_⟩
      · simp only; omega
      · simp only; omega
      · simp only [releasing_set _ _ t _ ht, hpc]
        simp
        omega
    · rename_i hpc
      unfold wake_student at h
      split at h
      · cases h
      · split at h
        · cases h
        · cases h
          refine ⟨h1, h2, ?_⟩
          simp only [releasing_set _ _ t _ ht, hpc]
          simpa using h3
    · rename_i hpc
      unfold count_session at h
      split at h
      · cases h
      · split at h
        · cases h
        · cases h
          refine ⟨h1, h2, ?_⟩
          simp only [releasing_set _ _ t _ ht, hpc]
          simpa using h3
    · rename_i hpc
      cases h
      refine ⟨h1, h2, ?_⟩
      simp only [releasing_set _ _ t _ ht, hpc]
      simpa using h3
    · cases h

theorem chairInv_init (N T C H : Int) (hC : 0 ≤ C) : ChairInv C (init N T C H) := by
  refine ⟨by simp [init], by simpa [init] using hC, ?_⟩
  simp only [init, List.length_nil, releasing, List.map_map]
  have : ∀ l : List Nat, ((l.map
      ((fun t : tutor_info => if t.thread = .release then (1 : Int) else 0) ∘
        fun j : Nat => (⟨(j : Int) + 1, 0, .wait, 0, none⟩ : tutor_info))).sum) = 0 := by
    intro l
    induction l with
    | nil => rfl
    | cons x xs ih => simp [ih]
  simp [this]

theorem chairInv_reachable (N T C H : Int) (hC : 0 ≤ C) (s : State)
    (hr : Reachable N T C H s) : ChairInv C s := by
  induction hr with
  | init => exact chairInv_init N T C H hC
  | step s s' th _ hstep ih =>
    cases th with
    | student i => exact chairInv_students C s s' i ih hstep
    | coordinator => exact chairInv_coordinator C s s' ih hstep
    | tutor j => exact chairInv_tutors C s s' j ih hstep

theorem releasing_nonneg (ts : List tutor_info) : 0 ≤ releasing ts := by
  unfold releasing
  induction ts with
  | nil => simp
  | cons t ts ih =>
    simp only [List.map_cons, List.sum_cons]
    split <;> omega

theorem run_schedule_reachable (N T C H : Int) (sched : List Thread) (s s' : State)
    (hr : Reachable N T C H s) (h : run_schedule s sched = some s') :
    Reachable N T C H s' := by
  induction sched generalizing s with
  | nil =>
    simp only [run_schedule, Option.some.injEq] at h
    exact h ▸ hr
  | cons th rest ih =>
    simp only [run_schedule] at h
    split at h
    · rename_i s1 h1
      exact ih s1 (Reachable.step s s1 th hr h1) h
    · cases h

/-- C5 (chair bound).  In every state `./csmc N T C H` with `C >= 0` can reach,
`0 <= available_chairs <= C`; moreover `available_chairs + waiting_students`
stays `C` and `waiting_students` never goes below 0. -/
theorem chair_bound (N T C H : Int) (hC : 0 ≤ C) (s : State)
    (hr : Reachable N T C H s) :
    0 ≤ s.available_chairs ∧ s.available_chairs ≤ C
      ∧ s.available_chairs + s.waiting_students = C ∧ 0 ≤ s.waiting_students := by
  obtain ⟨h1, h2, h3⟩ := chairInv_reachable N T C H hC s hr
  have h4 := releasing_nonneg s.tutor
  refine ⟨h2, ?_, h1, ?_⟩ <;> omega

/-- C5, at a concrete state: in `./csmc 2 1 1 1`, after student 1 has taken the
only chair and student 2 has been turned away, `available_chairs` is 0. -/
theorem chair_bound_witness :
    ∃ s, run_schedule (init 2 1 1 1) [.student 0, .student 0, .student 1, .student 1] = some s
      ∧ s.output = [.took_seat 1 0, .no_chair 2]
      ∧ 0 ≤ s.available_chairs ∧ s.available_chairs ≤ 1
      ∧ s.available_chairs + s.waiting_students = 1 ∧ 0 ≤ s.waiting_students :=
  ⟨_, rfl, by decide,
    chair_bound 2 1 1 1 (by decide) _
      (run_schedule_reachable 2 1 1 1 [.student 0, .student 0, .student 1, .student 1]
        (init 2 1 1 1) _ Reachable.init rfl)⟩

theorem quota_set (H : Int) (l : List student_info) (k : Nat) (x : student_info)
    (hl : ∀ st ∈ l, StudentOk H st) (hx : StudentOk H x) :
    ∀ st ∈ l.set k x, StudentOk H st := by
  intro st hst
  rcases List.mem_or_eq_of_mem_set hst with h | rfl
  · exact hl st h
  · exact hx

theorem quotaInv_students (H : Int) (s s' : State) (i : Nat) (hinv : QuotaInv H s)
    (h : run_students s i = .next s') : QuotaInv H s' := by
  obtain ⟨hH, hall⟩ := hinv
  unfold run_students at h
  split at h
  · cases h
  · rename_i st hst
    obtain ⟨a1, a2, a3⟩ := hall st (List.getElem?_mem hst)
    split at h
    · rename_i hpc
      unfold quota_check at h
      split at h
      · cases h
        exact ⟨hH, quota_set H _ _ _ hall ⟨a1, a2, by simp⟩⟩
      · rename_i hlt
        cases h
        refine ⟨hH, quota_set H _ _ _ hall ⟨a1, a2, ?_⟩⟩
        intro _
        simp only
        omega
    · cases h
      exact ⟨hH, quota_set H _ _ _ hall ⟨a1, a2, by simp⟩⟩
    · cases h
    · rename_i hpc
      have a4 := a3 (Or.inl hpc)
      unfold try_sit at h
      split at h
      · cases h
        exact ⟨hH, quota_set H _ _ _ hall ⟨a1, a2, by simp⟩⟩
      · split at h
        · cases h
        · cases h
          exact ⟨hH, quota_set H _ _ _ hall ⟨a1, a2, fun _ => a4⟩⟩
    · rename_i hpc
      have a4 := a3 (Or.inr (Or.inl hpc))
      cases h
      exact ⟨hH, quota_set H _ _ _ hall ⟨a1, a2, fun _ => a4⟩⟩
    · rename_i hpc
      have a4 := a3 (Or.inr (Or.inr (Or.inl hpc)))
      split at h
      · cases h
        exact ⟨hH, quota_set H _ _ _ hall ⟨a1, a2, fun _ => a4⟩⟩
      · cases h
    · rename_i hpc
      have a4 := a3 (Or.inr (Or.inr (Or.inr hpc)))
      unfold record_help at h
      split at h
      · cases h
      · split at h
        · cases h
        · cases h
          refine ⟨hH, quota_set H _ _ _ hall ⟨?_, ?_, by simp⟩⟩ <;> simp only <;> omega

theorem quotaInv_coordinator (H : Int) (s s' : State) (hinv : QuotaInv H s)
    (h : run_coordinator s = .next s') : QuotaInv H s' := by
  unfold run_coordinator at h
  split at h
  · split at h
    · cases h; exact hinv
    · cases h
  · split at h
    · split at h <;> (cases h; exact hinv)
    · cases h; exact hinv
  · unfold transfer at h
    split at h
    · cases h
    · split at h
      · cases h; exact hinv
      · split at h
        · cases h; exact hinv
        · cases h
  · split at h
    · split at h
      · cases h
      · cases h; exact hinv
    · cases h; exact hinv
  · cases h

theorem quotaInv_tutors (H : Int) (s s' : State) (j : Nat) (hinv : QuotaInv H s)
    (h : run_tutors s j = .next s') : QuotaInv H s' := by
  obtain ⟨hH, hall⟩ := hinv
  unfold run_tutors at h
  split at h
  · cases h
  · rename_i t ht
    split at h
    · split at h
      · cases h; exact ⟨hH, hall⟩
      · cases h
    · unfold termination_check at h
      split at h
      · split at h <;> (cases h; exact ⟨hH, hall⟩)
      · cases h; exact ⟨hH, hall⟩
    · unfold claim_head at h
      split at h
      · cases h
      · split at h
        · cases h
        · split at h
          · rename_i st pq hst hpq
            cases h
            exact ⟨hH, quota_set H _ _ _ hall (hall st (List.getElem?_mem hst))⟩
          · cases h
    · unfold leave_seat at h
      cases h; exact ⟨hH, hall⟩
    · unfold wake_student at h
      split at h
      · cases h
      · split at h
        · cases h
        · rename_i st hst
          cases h
          exact ⟨hH, quota_set H _ _ _ hall (hall st (List.getElem?_mem hst))⟩
    · unfold count_session at h
      split at h
      · cases h
      · split at h
        · cases h
        · cases h; exact ⟨hH, hall⟩
    · cases h; exact ⟨hH, hall⟩
    · cases h

theorem quotaInv_reachable (N T C H : Int) (hH : 0 ≤ H) (s : State)
    (hr : Reachable N T C H s) : QuotaInv H s := by
  induction hr with
  | init =>
    refine ⟨rfl, ?_⟩
    intro st hst
    simp only [init, List.mem_map, List.mem_range] at hst
    obtain ⟨i, -, rfl⟩ := hst
    exact ⟨le_refl _, hH, by simp⟩
  | step s s' th _ hstep ih =>
    cases th with
    | student i => exact quotaInv_students H s s' i ih hstep
    | coordinator => exact quotaInv_coordinator H s s' ih hstep
    | tutor j => exact quotaInv_tutors H s s' j ih hstep

theorem helpsStep_refl (th : Thread) (i : Nat) (st : student_info) : HelpsStep th i st st :=
  ⟨Or.inl rfl, fun h => h⟩

theorem helpsStep_set (th : Thread) (l : List student_info) (k : Nat) (old x : student_info)
    (hk : l[k]? = some old) (hR : HelpsStep th k old x) (i : Nat) (st : student_info)
    (hst : l[i]? = some st) :
    ∃ st', (l.set k x)[i]? = some st' ∧ HelpsStep th i st st' := by
  by_cases hki : k = i
  · subst hki
    rw [hk] at hst
    cases hst
    have hlt : k < l.length := (List.getElem?_eq_some_iff.mp hk).1
    exact ⟨x, by simp [List.getElem?_set, hlt], hR⟩
  · exact ⟨st, by rw [List.getElem?_set_ne hki]; exact hst, helpsStep_refl th i st⟩

theorem helpsStep_students (s s' : State) (k : Nat) (h : run_students s k = .next s')
    (i : Nat) (st : student_info) (hst : s.student[i]? = some st) :
    ∃ st', s'.student[i]? = some st' ∧ HelpsStep (.student k) i st st' := by
  unfold run_students at h
  split at h
  · cases h
  · rename_i st0 hst0
    split at h
    · rename_i hpc
      unfold quota_check at h
      split at h <;>
      · cases h
        refine helpsStep_set _ _ _ _ _ hst0 ?_ i st hst
        exact ⟨Or.inl rfl, by simp [hpc]⟩
    · cases h
      refine helpsStep_set _ _ _ _ _ hst0 ?_ i st hst
      exact ⟨Or.inl rfl, by simp⟩
    · cases h
    · rename_i hpc
      unfold try_sit at h
      split at h
      · cases h
        refine helpsStep_set _ _ _ _ _ hst0 ?_ i st hst
        exact ⟨Or.inl rfl, by simp [hpc]⟩
      · split at h
        · cases h
        · cases h
          refine helpsStep_set _ _ _ _ _ hst0 ?_ i st hst
          exact ⟨Or.inl rfl, by simp [hpc]⟩
    · rename_i hpc
      cases h
      refine helpsStep_set _ _ _ _ _ hst0 ?_ i st hst
      exact ⟨Or.inl rfl, by simp [hpc]⟩
    · rename_i hpc
      split at h
      · cases h
        refine helpsStep_set _ _ _ _ _ hst0 ?_ i st hst
        exact ⟨Or.inl rfl, by simp [hpc]⟩
      · cases h
    · rename_i hpc
      unfold record_help at h
      split at h
      · cases h
      · split at h
        · cases h
        · cases h
          refine helpsStep_set _ _ _ _ _ hst0 ?_ i st hst
          exact ⟨Or.inr ⟨rfl, rfl, hpc, rfl⟩, by simp [hpc]⟩

theorem helpsStep_coordinator (s s' : State) (h : run_coordinator s = .next s')
    (i : Nat) (st : student_info) (hst : s.student[i]? = some st) :
    ∃ st', s'.student[i]? = some st' ∧ HelpsStep .coordinator i st st' := by
  have key : s'.student = s.student := by
    unfold run_coordinator at h
    split at h
    · split at h
      · cases h; rfl
      · cases h
    · split at h
      · split at h <;> (cases h; rfl)
      · cases h; rfl
    · unfold transfer at h
      split at h
      · cases h
      · split at h
        · cases h; rfl
        · split at h
          · cases h; rfl
          · cases h
    · split at h
      · split at h
        · cases h
        · cases h; rfl
      · cases h; rfl
    · cases h
  exact ⟨st, key ▸ hst, helpsStep_refl _ i st⟩

theorem helpsStep_tutors (s s' : State) (j : Nat) (h : run_tutors s j = .next s')
    (i : Nat) (st : student_info) (hst : s.student[i]? = some st) :
    ∃ st', s'.student[i]? = some st' ∧ HelpsStep (.tutor j) i st st' := by
  unfold run_tutors at h
  split at h
  · cases h
  · rename_i t ht
    split at h
    · split at h
      · cases h; exact ⟨st, hst, helpsStep_refl _ i st⟩
      · cases h
    · unfold termination_check at h
      split at h
      · split at h <;> (cases h; exact ⟨st, hst, helpsStep_refl _ i st⟩)
      · cases h; exact ⟨st, hst, helpsStep_refl _ i st⟩
    · unfold claim_head at h
      split at h
      · cases h
      · split at h
        · cases h
        · split at h
          · rename_i st1 pq hst1 hpq
            cases h
            refine helpsStep_set _ _ _ _ _ hst1 ?_ i st hst
            exact ⟨Or.inl rfl, fun hx => hx⟩
          · cases h
    · unfold leave_seat at h
      cases h; exact ⟨st, hst, helpsStep_refl _ i st⟩
    · unfold wake_student at h
      split at h
      · cases h
      · split at h
        · cases h
        · rename_i st1 hst1
          cases h
          refine helpsStep_set _ _ _ _ _ hst1 ?_ i st hst
          exact ⟨Or.inl rfl, fun hx => hx⟩
    · unfold count_session at h
      split at h
      · cases h
      · split at h
        · cases h
        · cases h; exact ⟨st, hst, helpsStep_refl _ i st⟩
    · cases h; exact ⟨st, hst, helpsStep_refl _ i st⟩
    · cases h

/-- The counter `students_done` is only ever changed by a student at the top of its loop
whose quota test succeeds. -/
theorem students_done_step (s s' : State) (th : Thread) (h : step s th = .next s') :
    s'.students_done = s.students_done
      ∨ (s'.students_done = s.students_done + 1
          ∧ ∃ i st, th = .student i ∧ s.student[i]? = some st ∧ st.thread = .check
              ∧ st.helps_received - s.num_helps ≥ 0
              ∧ s'.student = s.student.set i { st with thread := .notify }) := by
  cases th with
  | student i =>
    simp only [step] at h
    unfold run_students at h
    split at h
    · cases h
    · rename_i st hst
      split at h
      · rename_i hpc
        unfold quota_check at h
        split at h
        · rename_i hq
          cases h
          exact Or.inr ⟨rfl, i, st, rfl, hst, hpc, hq, rfl⟩
        · cases h; exact Or.inl rfl
      · cases h; exact Or.inl rfl
      · cases h
      · unfold try_sit at h
        split at h
        · cases h; exact Or.inl rfl
        · split at h
          · cases h
          · cases h; exact Or.inl rfl
      · cases h; exact Or.inl rfl
      · split at h
        · cases h; exact Or.inl rfl
        · cases h
      · unfold record_help at h
        split at h
        · cases h
        · split at h
          · cases h
          · cases h; exact Or.inl rfl
  | coordinator =>
    left
    simp only [step] at h
    unfold run_coordinator at h
    split at h
    · split at h
      · cases h; rfl
      · cases h
    · split at h
      · split at h <;> (cases h; rfl)
      · cases h; rfl
    · unfold transfer at h
      split at h
      · cases h
      · split at h
        · cases h; rfl
        · split at h
          · cases h; rfl
          · cases h
    · split at h
      · split at h
        · cases h
        · cases h; rfl
      · cases h; rfl
    · cases h
  | tutor j =>
    left
    simp only [step] at h
    unfold run_tutors at h
    split at h
    · cases h
    · split at h
      · split at h
        · cases h; rfl
        · cases h
      · unfold termination_check at h
        split at h
        · split at h <;> (cases h; rfl)
        · cases h; rfl
      · unfold claim_head at h
        split at h
        · cases h
        · split at h
          · cases h
          · split at h
            · cases h; rfl
            · cases h
      · unfold leave_seat at h
        cases h; rfl
      · unfold wake_student at h
        split at h
        · cases h
        · split at h
          · cases h
          · cases h; rfl
      · unfold count_session at h
        split at h
        · cases h
        · split at h
          · cases h
          · cases h; rfl
      · cases h; rfl
      · cases h

/-- C6 (help quota), for `./csmc N T C H` with `H >= 0`.  (1) Every
`helps_received` starts at 0.  (2) A transition leaves `helps_received` of a
student as it is or adds 1, the latter only when that student completes a loop
iteration; and a student on its way out stays on its way out.  (3) In every
reachable state `0 <= helps_received <= H`.  (4) At the top of its loop a
student counts itself in `students_done` and leaves the loop exactly when
`helps_received = H`; otherwise it goes on programming.  (5) `students_done`
never changes in any other way, so each student is counted at most once.
(6) A student that has left the loop posts the coordinator once and has then
exited. -/
theorem help_quota (N T C H : Int) (hH : 0 ≤ H) :
    (∀ st ∈ (init N T C H).student, st.helps_received = 0)
    ∧ (∀ (s s' : State) (th : Thread), step s th = .next s' →
        ∀ i st, s.student[i]? = some st →
          ∃ st', s'.student[i]? = some st' ∧ HelpsStep th i st st')
    ∧ (∀ s, Reachable N T C H s →
        ∀ st ∈ s.student, 0 ≤ st.helps_received ∧ st.helps_received ≤ H)
    ∧ (∀ s, Reachable N T C H s → ∀ i st, s.student[i]? = some st → st.thread = .check →
        (st.helps_received = H →
          step s (.student i) = .next { s with
            students_done := s.students_done + 1
            student := s.student.set i { st with thread := .notify } })
        ∧ (st.helps_received ≠ H →
          step s (.student i) = .next { s with
            student := s.student.set i { st with thread := .program } }))
    ∧ (∀ s, Reachable N T C H s → ∀ (s' : State) (th : Thread), step s th = .next s' →
        s'.students_done = s.students_done
          ∨ (s'.students_done = s.students_done + 1
              ∧ ∃ i st, th = .student i ∧ s.student[i]? = some st ∧ st.thread = .check
                  ∧ st.helps_received = H
                  ∧ s'.student = s.student.set i { st with thread := .notify }))
    ∧ (∀ (s : State) (i : Nat) (st : student_info), s.student[i]? = some st →
        (st.thread = .notify →
          step s (.student i) = .next { s with
            student_to_coordinator := s.student_to_coordinator + 1
            student := s.student.set i { st with thread := .done } })
        ∧ (st.thread = .done → step s (.student i) = .halted)) := by
  refine ⟨?_, ?_, ?_, ?_, ?_, ?_⟩
  · intro st hst
    simp only [init, List.mem_map, List.mem_range] at hst
    obtain ⟨i, -, rfl⟩ := hst
    rfl
  · intro s s' th h i st hst
    cases th with
    | student k => exact helpsStep_students s s' k h i st hst
    | coordinator => exact helpsStep_coordinator s s' h i st hst
    | tutor j => exact helpsStep_tutors s s' j h i st hst
  · intro s hr st hst
    obtain ⟨a1, a2, -⟩ := (quotaInv_reachable N T C H hH s hr).2 st hst
    exact ⟨a1, a2⟩
  · intro s hr i st hst hpc
    obtain ⟨hnum, hall⟩ := quotaInv_reachable N T C H hH s hr
    obtain ⟨-, a2, -⟩ := hall st (List.getElem?_mem hst)
    constructor
    · intro he
      have : st.helps_received - s.num_helps ≥ 0 := by omega
      simp [step, run_students, hst, hpc, quota_check, this]
    · intro hne
      have : ¬ (st.helps_received - s.num_helps ≥ 0) := by omega
      simp [step, run_students, hst, hpc, quota_check, this]
  · intro s hr s' th h
    obtain ⟨hnum, hall⟩ := quotaInv_reachable N T C H hH s hr
    rcases students_done_step s s' th h with h1 | ⟨h1, i, st, hth, hst, hpc, hq, hset⟩
    · exact Or.inl h1
    · obtain ⟨-, a2, -⟩ := hall st (List.getElem?_mem hst)
      exact Or.inr ⟨h1, i, st, hth, hst, hpc, by omega, hset⟩
  · intro s i st hst
    constructor
    · intro hpc
      simp [step, run_students, hst, hpc]
    · intro hpc
      simp [step, run_students, hst, hpc]

/-- C6, at a concrete state of `./csmc 1 1 1 1`: after its one help student 1
has `helps_received = 1 = H`, and its next transition counts it in
`students_done`. -/
theorem help_quota_witness :
    ∃ s s', run_schedule (init 1 1 1 1)
        [.student 0, .student 0, .student 0, .coordinator, .coordinator, .coordinator,
          .tutor 0, .tutor 0, .tutor 0, .tutor 0, .tutor 0, .student 0, .student 0] = some s
      ∧ s.student = [⟨1, 1, .check, 0, none⟩]
      ∧ (∀ st ∈ s.student, 0 ≤ st.helps_received ∧ st.helps_received ≤ 1)
      ∧ step s (.student 0) = .next s' ∧ s'.students_done = 1
      ∧ s'.student = [⟨1, 1, .notify, 0, none⟩] := by
  have hr := run_schedule_reachable 1 1 1 1
    [.student 0, .student 0, .student 0, .coordinator, .coordinator, .coordinator,
      .tutor 0, .tutor 0, .tutor 0, .tutor 0, .tutor 0, .student 0, .student 0]
    (init 1 1 1 1) _ Reachable.init rfl
  have h := help_quota 1 1 1 1 (by decide)
  exact ⟨_, _, rfl, rfl, h.2.2.1 _ hr,
    (h.2.2.2.1 _ hr 0 ⟨1, 1, .check, 0, none⟩ rfl rfl).1 rfl, rfl, rfl⟩

/-- C9 (scenario S6) fails on the code: from the initial state of
`./csmc 0 1 1 1` no thread can make a transition.  The coordinator is blocked
in `sem_wait(&student_to_coordinator)` and the tutor in `sem_wait` on its own
semaphore, both with count 0, and there is no student to post; so every
reachable state is the initial one and neither thread ever exits. -/
theorem s6_deadlock (s : State) (hr : Reachable 0 1 1 1 s) :
    s = init 0 1 1 1 ∧ step s .coordinator = .blocked ∧ step s (.tutor 0) = .blocked
      ∧ s.coordinator ≠ .done ∧ (∀ t ∈ s.tutor, t.thread ≠ .done)
      ∧ ∀ (th : Thread) (s' : State), step s th ≠ .next s' := by
  have hstuck : ∀ (th : Thread) (s' : State), step (init 0 1 1 1) th ≠ .next s' := by
    have hinit : init 0 1 1 1
        = ⟨0, 1, 1, 1, 0, 0, 0, 0, 0, [], [⟨1, 0, .wait, 0, none⟩], [], [], 0, .wait, []⟩ := by
      decide
    intro th s' h
    rw [hinit] at h
    cases th with
    | student i => simp [step, run_students] at h
    | coordinator => simp [step, run_coordinator] at h
    | tutor j =>
      cases j with
      | zero => simp [step, run_tutors] at h
      | succ j => simp [step, run_tutors] at h
  have heq : s = init 0 1 1 1 := by
    induction hr with
    | init => rfl
    | step s s' th _ hstep ih =>
      subst ih
      exact absurd hstep (hstuck th s')
  subst heq
  exact ⟨rfl, by decide, by decide, by decide, by decide, hstuck⟩

/-- C9, at the initial state of `./csmc 0 1 1 1`. -/
theorem s6_deadlock_witness :
    step (init 0 1 1 1) .coordinator = .blocked ∧ step (init 0 1 1 1) (.tutor 0) = .blocked
      ∧ (init 0 1 1 1).coordinator ≠ .done :=
  ⟨(s6_deadlock (init 0 1 1 1) Reachable.init).2.1,
   (s6_deadlock (init 0 1 1 1) Reachable.init).2.2.1,
   (s6_deadlock (init 0 1 1 1) Reachable.init).2.2.2.1⟩

theorem tutoring_now_set (ts : List tutor_info) (j : Nat) (t t' : tutor_info)
    (h : ts[j]? = some t) :
    tutoring_now (ts.set j t')
      = tutoring_now ts - (if t.thread = .tutoring then (1 : Int) else 0)
          + (if t'.thread = .tutoring then (1 : Int) else 0) :=
  sum_map_set _ ts j t t' h

theorem woken_set (sts : List student_info) (i : Nat) (st st' : student_info)
    (h : sts[i]? = some st) :
    woken (sts.set i st')
      = woken sts - ((st.sem : Int) + (if st.thread = .tutored then 1 else 0))
          + ((st'.sem : Int) + (if st'.thread = .tutored then 1 else 0)) :=
  sum_map_set _ sts i st st' h

theorem helps_sum_set (sts : List student_info) (i : Nat) (st st' : student_info)
    (h : sts[i]? = some st) :
    ((sts.set i st').map student_info.helps_received).sum
      = (sts.map student_info.helps_received).sum - st.helps_received + st'.helps_received :=
  sum_map_set _ sts i st st' h

theorem sessionInv_students (s s' : State) (i : Nat) (hinv : SessionInv s)
    (h : run_students s i = .next s') : SessionInv s' := by
  unfold SessionInv helps_total at *
  unfold run_students at h
  split at h
  · cases h
  · rename_i st hst
    split at h
    · rename_i hpc
      unfold quota_check at h
      split at h <;>
      · cases h
        simp only [helps_sum_set _ _ st _ hst, woken_set _ _ st _ hst, hpc]
        simp
        omega
    · rename_i hpc
      cases h
      simp only [helps_sum_set _ _ st _ hst, woken_set _ _ st _ hst, hpc]
      simp
      omega
    · cases h
    · rename_i hpc
      unfold try_sit at h
      split at h
      · cases h
        simp only [helps_sum_set _ _ st _ hst, woken_set _ _ st _ hst, hpc]
        simp
        omega
      · split at h
        · cases h
        · cases h
          simp only [helps_sum_set _ _ st _ hst, woken_set _ _ st _ hst, hpc]
          simp
          omega
    · rename_i hpc
      cases h
      simp only [helps_sum_set _ _ st _ hst, woken_set _ _ st _ hst, hpc]
      simp
      omega
    · rename_i hpc
      split at h
      · rename_i hsem
        cases h
        simp only [helps_sum_set _ _ st _ hst, woken_set _ _ st _ hst, hpc]
        simp
        omega
      · cases h
    · rename_i hpc
      unfold record_help at h
      split at h
      · cases h
      · split at h
        · cases h
        · cases h
          simp only [helps_sum_set _ _ st _ hst, woken_set _ _ st _ hst, hpc]
          simp
          omega

theorem sessionInv_coordinator (s s' : State) (hinv : SessionInv s)
    (h : run_coordinator s = .next s') : SessionInv s' := by
  unfold run_coordinator at h
  split at h
  · split at h
    · cases h; exact hinv
    · cases h
  · split at h
    · split at h <;> (cases h; exact hinv)
    · cases h; exact hinv
  · unfold transfer at h
    split at h
    · cases h
    · split at h
      · cases h; exact hinv
      · split at h
        · rename_i pq sq ts hpq hsq hts
          cases h
          obtain ⟨j, t, hj, rfl, -⟩ := signal_tutor_set _ _ hts
          unfold SessionInv helps_total at *
          simp only [tutoring_now_set _ j t _ hj]
          omega
        · cases h
  · split at h
    · split at h
      · cases h
      · rename_i t ht
        cases h
        unfold SessionInv helps_total at *
        simp only [tutoring_now_set _ _ t _ ht]
        omega
    · cases h; exact hinv
  · cases h

theorem sessionInv_tutors (s s' : State) (j : Nat) (hinv : SessionInv s)
    (h : run_tutors s j = .next s') : SessionInv s' := by
  unfold SessionInv helps_total at *
  unfold run_tutors at h
  split at h
  · cases h
  · rename_i t ht
    split at h
    · rename_i hpc
      split at h
      · cases h
        simp only [tutoring_now_set _ _ t _ ht, hpc]
        simp
        omega
      · cases h
    · rename_i hpc
      unfold termination_check at h
      split at h
      · split at h <;>
        · cases h
          simp only [tutoring_now_set _ _ t _ ht, hpc]
          simp
          omega
      · cases h
        simp only [tutoring_now_set _ _ t _ ht, hpc]
        simp
        omega
    · rename_i hpc
      unfold claim_head at h
      split at h
      · cases h
      · split at h
        · cases h
        · split at h
          · rename_i st pq hst hpq
            cases h
            simp only [tutoring_now_set _ _ t _ ht, helps_sum_set _ _ st _ hst,
              woken_set _ _ st _ hst, hpc]
            simp
            omega
          · cases h
    · rename_i hpc
      unfold leave_seat at h
      cases h
      simp only [tutoring_now_set _ _ t _ ht, hpc]
      simp
      omega
    · rename_i hpc
      unfold wake_student at h
      split at h
      · cases h
      · split at h
        · cases h
        · rename_i st hst
          cases h
          simp only [tutoring_now_set _ _ t _ ht, helps_sum_set _ _ st _ hst,
            woken_set _ _ st _ hst, hpc]
          simp
          omega
    · rename_i hpc
      unfold count_session at h
      split at h
      · cases h
      · split at h
        · cases h
        · cases h
          simp only [tutoring_now_set _ _ t _ ht, hpc]
          simp
          omega
    · rename_i hpc
      cases h
      simp only [tutoring_now_set _ _ t _ ht, hpc]
      simp
      omega
    · cases h

theorem sessionInv_init (N T C H : Int) : SessionInv (init N T C H) := by
  unfold SessionInv helps_total tutoring_now woken
  simp only [init, List.map_map]
  have h1 : ∀ l : List Nat, ((l.map
      ((fun t : tutor_info => if t.thread = .tutoring then (1 : Int) else 0) ∘
        fun j : Nat => (⟨(j : Int) + 1, 0, .wait, 0, none⟩ : tutor_info))).sum) = 0 := by
    intro l
    induction l with
    | nil => rfl
    | cons x xs ih => simp [ih]
  have h2 : ∀ l : List Nat, ((l.map
      (student_info.helps_received ∘
        fun i : Nat => (⟨(i : Int) + 1, 0, .check, 0, none⟩ : student_info))).sum) = 0 := by
    intro l
    induction l with
    | nil => rfl
    | cons x xs ih => simp [ih]
  have h3 : ∀ l : List Nat, ((l.map
      ((fun st : student_info => (st.sem : Int) + (if st.thread = .tutored then 1 else 0)) ∘
        fun i : Nat => (⟨(i : Int) + 1, 0, .check, 0, none⟩ : student_info))).sum) = 0 := by
    intro l
    induction l with
    | nil => rfl
    | cons x xs ih => simp [ih]
  rw [h1, h2, h3]

theorem sessionInv_reachable (N T C H : Int) (s : State) (hr : Reachable N T C H s) :
    SessionInv s := by
  induction hr with
  | init => exact sessionInv_init N T C H
  | step s s' th _ hstep ih =>
    cases th with
    | student i => exact sessionInv_students s s' i ih hstep
    | coordinator => exact sessionInv_coordinator s s' ih hstep
    | tutor j => exact sessionInv_tutors s s' j ih hstep

/-- C10 as stated fails: in `./csmc 1 1 1 1` the student can record its help
(line 273) before the tutor counts the session (line 388).  In the state
reached no thread is inside a `chair_lock` region, `sessions_tutored` is 0
and the `helps_received` add up to 1. -/
theorem session_accounting_counterexample :
    ∃ s, Reachable 1 1 1 1 s ∧ s.sessions_tutored = 0 ∧ helps_total s = 1
      ∧ s.sessions_tutored ≠ helps_total s :=
  ⟨_, run_schedule_reachable 1 1 1 1
      [.student 0, .student 0, .student 0, .coordinator, .coordinator, .coordinator,
        .tutor 0, .tutor 0, .tutor 0, .tutor 0, .tutor 0, .student 0, .student 0]
      (init 1 1 1 1) _ Reachable.init rfl,
    by decide, by decide, by decide⟩

/-- C10, amended.  In every reachable state `sessions_tutored` plus the number
of tutors that have woken their student and not yet counted the session equals
the sum of all `helps_received` plus the number of helps handed out and not
yet recorded (unconsumed posts on student semaphores, and students woken and
not yet past line 273).  So `sessions_tutored` equals the sum of
`helps_received` whenever no such session and no such help is pending. -/
theorem session_accounting (N T C H : Int) (s : State) (hr : Reachable N T C H s) :
    s.sessions_tutored + tutoring_now s.tutor = helps_total s + woken s.student
      ∧ (tutoring_now s.tutor = 0 → woken s.student = 0 →
          s.sessions_tutored = helps_total s) := by
  have h := sessionInv_reachable N T C H s hr
  unfold SessionInv at h
  refine ⟨h, ?_⟩
  intro h1 h2
  omega

/-- C10 amended, at two states of `./csmc 1 1 1 1`: the state of the
counterexample, where one session is pending, and the final state, where
`sessions_tutored = 1` is the sum of `helps_received`. -/
theorem session_accounting_witness :
    (∃ s, run_schedule (init 1 1 1 1)
        [.student 0, .student 0, .student 0, .coordinator, .coordinator, .coordinator,
          .tutor 0, .tutor 0, .tutor 0, .tutor 0, .tutor 0, .student 0, .student 0] = some s
      ∧ tutoring_now s.tutor = 1 ∧ woken s.student = 0
      ∧ s.sessions_tutored + tutoring_now s.tutor = helps_total s + woken s.student)
    ∧ (∃ s, run_schedule (init 1 1 1 1)
        [.student 0, .student 0, .student 0, .coordinator, .coordinator, .coordinator,
          .tutor 0, .tutor 0, .tutor 0, .tutor 0, .tutor 0, .student 0, .student 0,
          .tutor 0, .tutor 0, .student 0, .student 0, .coordinator, .coordinator,
          .coordinator, .coordinator, .tutor 0, .tutor 0] = some s
      ∧ s.coordinator = .done ∧ s.sessions_tutored = 1 ∧ s.sessions_tutored = helps_total s) :=
  ⟨⟨_, rfl, by decide, by decide,
      (session_accounting 1 1 1 1 _ (run_schedule_reachable 1 1 1 1
        [.student 0, .student 0, .student 0, .coordinator, .coordinator, .coordinator,
          .tutor 0, .tutor 0, .tutor 0, .tutor 0, .tutor 0, .student 0, .student 0]
        (init 1 1 1 1) _ Reachable.init rfl)).1⟩,
   ⟨_, rfl, by decide, by decide,
      (session_accounting 1 1 1 1 _ (run_schedule_reachable 1 1 1 1
        [.student 0, .student 0, .student 0, .coordinator, .coordinator, .coordinator,
          .tutor 0, .tutor 0, .tutor 0, .tutor 0, .tutor 0, .student 0, .student 0,
          .tutor 0, .tutor 0, .student 0, .student 0, .coordinator, .coordinator,
          .coordinator, .coordinator, .tutor 0, .tutor 0]
        (init 1 1 1 1) _ Reachable.init rfl)).2 (by decide) (by decide)⟩⟩

/-! ### The arrival hand-off -/

theorem map_id_set (l : List student_info) (i : Nat) (st st' : student_info)
    (h : l[i]? = some st) (hid : st'.student_id = st.student_id) :
    (l.set i st').map student_info.student_id = l.map student_info.student_id := by
  induction l generalizing i with
  | nil => simp
  | cons x xs ih =>
    cases i with
    | zero =>
      simp only [List.getElem?_cons_zero, Option.some.injEq] at h
      subst h
      simp [hid]
    | succ i =>
      simp only [List.getElem?_cons_succ] at h
      simp only [List.set_cons_succ, List.map_cons, ih i h]

theorem enqueue_mem (q q' : List node) (id p : Int) (h : enqueue q id p = some q')
    (n : node) (hn : n ∈ q') : n ∈ q ∨ n = ⟨id, p⟩ := by
  rw [enqueue_eq] at h
  rw [← Option.some.inj h] at hn
  rcases List.mem_append.mp hn with h1 | h1
  · exact Or.inl ((List.takeWhile_sublist _).subset h1)
  · rcases List.mem_cons.mp h1 with h2 | h2
    · exact Or.inr h2
    · exact Or.inl ((List.dropWhile_sublist _).subset h2)

theorem pop_mem (q q' : List node) (h : pop q = some q') (n : node) (hn : n ∈ q') :
    n ∈ q := by
  cases q with
  | nil => simp [pop] at h
  | cons x t =>
    simp only [pop, Option.some.injEq] at h
    exact h ▸ List.mem_cons_of_mem _ hn

/-- With priority 0 throughout, an insertion with priority 0 goes to the tail. -/
theorem enqueue_zero_append (q : List node) (id : Int) (hq : ∀ n ∈ q, n.priority = 0) :
    enqueue q id 0 = some (q ++ [⟨id, 0⟩]) := by
  rw [enqueue_eq]
  have h1 : q.takeWhile (fun n => decide (n.priority ≤ 0)) = q :=
    List.takeWhile_eq_self_iff.mpr (fun n hn => by simp [hq n hn])
  have h2 : q.dropWhile (fun n => decide (n.priority ≤ 0)) = [] :=
    List.dropWhile_eq_nil_iff.mpr (fun n hn => by simp [hq n hn])
  rw [h1, h2]

theorem find_student_of_mem (sts : List student_info) (s_id : Int)
    (h : s_id ∈ sts.map student_info.student_id) :
    ∃ st, find_student sts s_id = some st ∧ st ∈ sts ∧ st.student_id = s_id := by
  unfold find_student
  cases hf : sts.find? (fun st => st.student_id == s_id) with
  | none =>
    rw [List.find?_eq_none] at hf
    obtain ⟨st, hst, hid⟩ := List.mem_map.mp h
    exact absurd (by simpa using hid) (hf st hst)
  | some st =>
    exact ⟨st, rfl, List.mem_of_find?_eq_some hf, by simpa using List.find?_some hf⟩

theorem find_student_mem (sts : List student_info) (s_id : Int) (st : student_info)
    (h : find_student sts s_id = some st) : st ∈ sts ∧ st.student_id = s_id :=
  ⟨List.mem_of_find?_eq_some h, by simpa using List.find?_some h⟩

theorem signal_tutor_ne_nil (ts : List tutor_info) (h : ts ≠ []) :
    ∃ ts', signal_tutor ts = some ts' := by
  cases hw : wake_idle ts with
  | some ts1 => exact ⟨ts1, by simp [signal_tutor, hw]⟩
  | none =>
    cases ts with
    | nil => exact absurd rfl h
    | cons t rest => exact ⟨{ t with sem := t.sem + 1 } :: rest, by simp [signal_tutor, hw]⟩

theorem arrivalInv_congr (N T : Int) (s s' : State)
    (h1 : s'.student.map student_info.student_id = s.student.map student_info.student_id)
    (h2 : s'.tutor.length = s.tutor.length)
    (h3 : ∀ n ∈ s'.student_queue, n ∈ s.student_queue
      ∨ (n.priority = 0 ∧ n.student_id ∈ s.student.map student_info.student_id))
    (h4 : ∀ n ∈ s'.priority_queue, n ∈ s.priority_queue
      ∨ n.student_id ∈ s.student.map student_info.student_id)
    (hinv : ArrivalInv N T s) : ArrivalInv N T s' := by
  obtain ⟨a1, a2, a3, a4⟩ := hinv
  refine ⟨h1.trans a1, h2.trans a2, ?_, ?_⟩
  · intro n hn
    rw [h1]
    rcases h3 n hn with h | h
    · exact a3 n h
    · exact h
  · intro n hn
    rw [h1]
    rcases h4 n hn with h | h
    · exact a4 n h
    · exact h

theorem arrivalInv_students (N T : Int) (s s' : State) (i : Nat) (hinv : ArrivalInv N T s)
    (h : run_students s i = .next s') : ArrivalInv N T s' := by
  unfold run_students at h
  split at h
  · cases h
  · rename_i st hst
    have hmem : st.student_id ∈ s.student.map student_info.student_id :=
      List.mem_map_of_mem _ (List.getElem?_mem hst)
    split at h
    · unfold quota_check at h
      split at h <;>
      · cases h
        exact arrivalInv_congr N T s _ (map_id_set _ _ st _ hst rfl) rfl
          (fun n hn => Or.inl hn) (fun n hn => Or.inl hn) hinv
    · cases h
      exact arrivalInv_congr N T s _ (map_id_set _ _ st _ hst rfl) rfl
        (fun n hn => Or.inl hn) (fun n hn => Or.inl hn) hinv
    · cases h
    · unfold try_sit at h
      split at h
      · cases h
        exact arrivalInv_congr N T s _ (map_id_set _ _ st _ hst rfl) rfl
          (fun n hn => Or.inl hn) (fun n hn => Or.inl hn) hinv
      · split at h
        · cases h
        · rename_i q hq
          cases h
          refine arrivalInv_congr N T s _ (map_id_set _ _ st _ hst rfl) rfl
            ?_ (fun n hn => Or.inl hn) hinv
          intro n hn
          rcases enqueue_mem _ _ _ _ hq n hn with h1 | h1
          · exact Or.inl h1
          · exact Or.inr (h1 ▸ ⟨rfl, hmem⟩)
    · cases h
      exact arrivalInv_congr N T s _ (map_id_set _ _ st _ hst rfl) rfl
        (fun n hn => Or.inl hn) (fun n hn => Or.inl hn) hinv
    · split at h
      · cases h
        exact arrivalInv_congr N T s _ (map_id_set _ _ st _ hst rfl) rfl
          (fun n hn => Or.inl hn) (fun n hn => Or.inl hn) hinv
      · cases h
    · unfold record_help at h
      split at h
      · cases h
      · split at h
        · cases h
        · cases h
          exact arrivalInv_congr N T s _ (map_id_set _ _ st _ hst rfl) rfl
            (fun n hn => Or.inl hn) (fun n hn => Or.inl hn) hinv

theorem arrivalInv_coordinator (N T : Int) (s s' : State) (hinv : ArrivalInv N T s)
    (h : run_coordinator s = .next s') : ArrivalInv N T s' := by
  unfold run_coordinator at h
  split at h
  · split at h
    · cases h; exact hinv
    · cases h
  · split at h
    · split at h <;> (cases h; exact hinv)
    · cases h; exact hinv
  · unfold transfer at h
    split at h
    · cases h
    · split at h
      · cases h; exact hinv
      · rename_i st hfind
        split at h
        · rename_i pq sq ts hpq hsq hts
          cases h
          obtain ⟨j, t, hj, rfl, -⟩ := signal_tutor_set _ _ hts
          refine arrivalInv_congr N T s _ rfl (by simp)
            (fun n hn => Or.inl (pop_mem _ _ hsq n hn)) ?_ hinv
          intro n hn
          rcases enqueue_mem _ _ _ _ hpq n hn with h1 | h1
          · exact Or.inl h1
          · exact Or.inr (h1 ▸ List.mem_map_of_mem _ (find_student_mem _ _ _ hfind).1)
        · cases h
  · split at h
    · split at h
      · cases h
      · cases h
        exact arrivalInv_congr N T s _ rfl (by simp)
          (fun n hn => Or.inl hn) (fun n hn => Or.inl hn) hinv
    · cases h; exact hinv
  · cases h

theorem arrivalInv_tutors (N T : Int) (s s' : State) (j : Nat) (hinv : ArrivalInv N T s)
    (h : run_tutors s j = .next s') : ArrivalInv N T s' := by
  unfold run_tutors at h
  split at h
  · cases h
  · rename_i t ht
    split at h
    · split at h
      · cases h
        exact arrivalInv_congr N T s _ rfl (by simp)
          (fun n hn => Or.inl hn) (fun n hn => Or.inl hn) hinv
      · cases h
    · unfold termination_check at h
      split at h
      · split at h <;>
        · cases h
          exact arrivalInv_congr N T s _ rfl (by simp)
            (fun n hn => Or.inl hn) (fun n hn => Or.inl hn) hinv
      · cases h
        exact arrivalInv_congr N T s _ rfl (by simp)
          (fun n hn => Or.inl hn) (fun n hn => Or.inl hn) hinv
    · unfold claim_head at h
      split at h
      · cases h
      · split at h
        · cases h
        · split at h
          · rename_i st pq hst hpq
            cases h
            exact arrivalInv_congr N T s _ (map_id_set _ _ st _ hst rfl) (by simp)
              (fun n hn => Or.inl hn) (fun n hn => Or.inl (pop_mem _ _ hpq n hn)) hinv
          · cases h
    · unfold leave_seat at h
      cases h
      exact arrivalInv_congr N T s _ rfl (by simp)
        (fun n hn => Or.inl hn) (fun n hn => Or.inl hn) hinv
    · unfold wake_student at h
      split at h
      · cases h
      · split at h
        · cases h
        · rename_i st hst
          cases h
          exact arrivalInv_congr N T s _ (map_id_set _ _ st _ hst rfl) (by simp)
            (fun n hn => Or.inl hn) (fun n hn => Or.inl hn) hinv
    · unfold count_session at h
      split at h
      · cases h
      · split at h
        · cases h
        · cases h
          exact arrivalInv_congr N T s _ rfl (by simp)
            (fun n hn => Or.inl hn) (fun n hn => Or.inl hn) hinv
    · cases h
      exact arrivalInv_congr N T s _ rfl (by simp)
        (fun n hn => Or.inl hn) (fun n hn => Or.inl hn) hinv
    · cases h

theorem arrivalInv_reachable (N T C H : Int) (s : State) (hr : Reachable N T C H s) :
    ArrivalInv N T s := by
  induction hr with
  | init =>
    refine ⟨?_, ?_, ?_, ?_⟩
    · simp [init, Function.comp_def]
    · simp [init]
    · intro n hn; simp [init] at hn
    · intro n hn; simp [init] at hn
  | step s s' th _ hstep ih =>
    cases th with
    | student i => exact arrivalInv_students N T s s' i ih hstep
    | coordinator => exact arrivalInv_coordinator N T s s' ih hstep
    | tutor j => exact arrivalInv_tutors N T s s' j ih hstep

/-- The only changes a transition can make to `student_queue`: a student that
finds a chair enqueues itself with priority 0, and the coordinator in its
processing region removes the head. -/
theorem student_queue_step (s s' : State) (th : Thread) (h : step s th = .next s') :
    s'.student_queue = s.student_queue
      ∨ (∃ i st, th = .student i ∧ s.student[i]? = some st ∧ st.thread = .program
          ∧ enqueue s.student_queue st.student_id 0 = some s'.student_queue)
      ∨ (th = .coordinator ∧ s.coordinator = .process
          ∧ ∃ hd, s.student_queue = hd :: s'.student_queue) := by
  cases th with
  | student i =>
    simp only [step] at h
    unfold run_students at h
    split at h
    · cases h
    · rename_i st hst
      split at h
      · unfold quota_check at h
        split at h <;> (cases h; exact Or.inl rfl)
      · cases h; exact Or.inl rfl
      · cases h
      · rename_i hpc
        unfold try_sit at h
        split at h
        · cases h; exact Or.inl rfl
        · split at h
          · cases h
          · rename_i q hq
            cases h
            exact Or.inr (Or.inl ⟨i, st, rfl, hst, hpc, hq⟩)
      · cases h; exact Or.inl rfl
      · split at h
        · cases h; exact Or.inl rfl
        · cases h
      · unfold record_help at h
        split at h
        · cases h
        · split at h
          · cases h
          · cases h; exact Or.inl rfl
  | coordinator =>
    simp only [step] at h
    unfold run_coordinator at h
    split at h
    · split at h
      · cases h; exact Or.inl rfl
      · cases h
    · split at h
      · split at h <;> (cases h; exact Or.inl rfl)
      · cases h; exact Or.inl rfl
    · rename_i hpc
      unfold transfer at h
      split at h
      · cases h
      · split at h
        · cases h; exact Or.inl rfl
        · split at h
          · rename_i pq sq ts hpq hsq hts
            cases h
            right; right
            refine ⟨rfl, hpc, ?_⟩
            cases hq : s.student_queue with
            | nil => simp [hq, pop] at hsq
            | cons hd tl =>
              simp only [hq, pop, Option.some.injEq] at hsq
              exact ⟨hd, by rw [hsq]⟩
          · cases h
    · split at h
      · split at h
        · cases h
        · cases h; exact Or.inl rfl
      · cases h; exact Or.inl rfl
    · cases h
  | tutor j =>
    left
    simp only [step] at h
    unfold run_tutors at h
    split at h
    · cases h
    · split at h
      · split at h
        · cases h; rfl
        · cases h
      · unfold termination_check at h
        split at h
        · split at h <;> (cases h; rfl)
        · cases h; rfl
      · unfold claim_head at h
        split at h
        · cases h
        · split at h
          · cases h
          · split at h
            · cases h; rfl
            · cases h
      · unfold leave_seat at h
        cases h; rfl
      · unfold wake_student at h
        split at h
        · cases h
        · split at h
          · cases h
          · cases h; rfl
      · unfold count_session at h
        split at h
        · cases h
        · split at h
          · cases h
          · cases h; rfl
      · cases h; rfl
      · cases h

theorem student_id_of_index (N T : Int) (s : State) (hinv : ArrivalInv N T s) (k : Nat)
    (st : student_info) (hst : s.student[k]? = some st) : st.student_id = (k : Int) + 1 := by
  have a1 := hinv.1
  have hlen : k < N.toNat := by
    have h1 : k < s.student.length := (List.getElem?_eq_some_iff.mp hst).1
    have h2 := congrArg List.length a1
    simp only [List.length_map, List.length_range] at h2
    omega
  have h3 := congrArg (fun l => l[k]?) a1
  simp only [List.getElem?_map, hst, Option.map_some', List.getElem?_range hlen] at h3
  exact Option.some.inj h3

/-- C11 (arrival hand-off), in every state `./csmc N T C H` can reach.
(1) Student `k` of the array has id `k + 1`, so an id names one student.
(2) Every cell of `student_queue` has priority 0.  (3) A student that finds a
chair is appended at the tail of `student_queue`.  (4) A transition changes
`student_queue` in no other way than by such an append or by the coordinator
removing the head, so the queue holds the ids in the order of enqueueing.
(5) With the coordinator in its processing region and `student_queue = hd :: tl`
there is a student `st` with the head's id; a processing step leaves
`student_queue = tl` and puts the one cell `(hd.student_id, st.helps_received)`
somewhere into `priority_queue`, whose old cells keep their order; and with at
least one tutor to signal the step does take place. -/
theorem arrival_handoff (N T C H : Int) (s : State) (hr : Reachable N T C H s) :
    (∀ (k : Nat) (st : student_info), s.student[k]? = some st →
        st.student_id = (k : Int) + 1)
    ∧ (∀ n ∈ s.student_queue, n.priority = 0)
    ∧ (∀ (i : Nat) (st : student_info), s.student[i]? = some st → st.thread = .program →
        0 < s.available_chairs →
        ∃ s', step s (.student i) = .next s'
          ∧ s'.student_queue = s.student_queue ++ [⟨st.student_id, 0⟩])
    ∧ (∀ (th : Thread) (s' : State), step s th = .next s' →
        s'.student_queue = s.student_queue
          ∨ (∃ i st, th = .student i ∧ s.student[i]? = some st
              ∧ s'.student_queue = s.student_queue ++ [⟨st.student_id, 0⟩])
          ∨ (th = .coordinator ∧ ∃ hd, s.student_queue = hd :: s'.student_queue))
    ∧ (∀ hd tl, s.coordinator = .process → s.student_queue = hd :: tl →
        ∃ (k : Nat) (st : student_info), s.student[k]? = some st
          ∧ st.student_id = hd.student_id
          ∧ (∀ s', step s .coordinator = .next s' →
              s'.student_queue = tl
                ∧ ∃ l1 l2, s.priority_queue = l1 ++ l2
                    ∧ s'.priority_queue
                        = l1 ++ ⟨hd.student_id, st.helps_received⟩ :: l2)
          ∧ (1 ≤ T → ∃ s', step s .coordinator = .next s')) := by
  have hinv := arrivalInv_reachable N T C H s hr
  have hq0 : ∀ n ∈ s.student_queue, n.priority = 0 := fun n hn => (hinv.2.2.1 n hn).1
  refine ⟨student_id_of_index N T s hinv, hq0, ?_, ?_, ?_⟩
  · intro i st hst hpc hc
    have hc' : ¬ s.available_chairs ≤ 0 := not_le.mpr hc
    simp only [step, run_students, hst, hpc, try_sit, hc', if_false,
      enqueue_zero_append _ _ hq0]
    exact ⟨_, rfl, rfl⟩
  · intro th s' h
    rcases student_queue_step s s' th h with h1 | ⟨i, st, hth, hst, -, he⟩ | ⟨hth, -, hd, hq⟩
    · exact Or.inl h1
    · rw [enqueue_zero_append _ _ hq0] at he
      exact Or.inr (Or.inl ⟨i, st, hth, hst, (Option.some.inj he).symm⟩)
    · exact Or.inr (Or.inr ⟨hth, hd, hq⟩)
  · intro hd tl hpc hq
    have hmem : hd.student_id ∈ s.student.map student_info.student_id :=
      (hinv.2.2.1 hd (hq ▸ List.mem_cons_self _ _)).2
    obtain ⟨st, hfind, hst, hid⟩ := find_student_of_mem _ _ hmem
    obtain ⟨k, hk⟩ := List.mem_iff_getElem?.mp hst
    refine ⟨k, st, hk, hid, ?_, ?_⟩
    · intro s' h
      simp only [step, run_coordinator, hpc, transfer, hq, peek, hfind, pop, enqueue_eq,
        hid] at h
      cases hts : signal_tutor s.tutor with
      | none => simp [hts] at h
      | some ts =>
        simp only [hts, Outcome.next.injEq] at h
        subst h
        exact ⟨rfl, _, _, (List.takeWhile_append_dropWhile _ _).symm, rfl⟩
    · intro hT
      have hne : s.tutor ≠ [] := by
        intro he
        have := hinv.2.1
        rw [he] at this
        simp only [List.length_nil] at this
        omega
      obtain ⟨ts, hts⟩ := signal_tutor_ne_nil s.tutor hne
      simp only [step, run_coordinator, hpc, transfer, hq, peek, hfind, pop, enqueue_eq, hts]
      exact ⟨_, rfl⟩

/-- C11, at a concrete state of `./csmc 2 1 2 1`: student 2 sat down before
student 1; the coordinator's processing step takes student 2 from the head of
`student_queue` and leaves student 1 there. -/
theorem arrival_handoff_witness :
    ∃ s s', run_schedule (init 2 1 2 1)
        [.student 0, .student 1, .student 1, .student 0, .student 1, .coordinator,
          .coordinator] = some s
      ∧ step s .coordinator = .next s'
      ∧ s.student_queue = [⟨2, 0⟩, ⟨1, 0⟩] ∧ s'.student_queue = [⟨1, 0⟩]
      ∧ s'.priority_queue = [⟨2, 0⟩] ∧ (∀ n ∈ s.student_queue, n.priority = 0) := by
  have hr := run_schedule_reachable 2 1 2 1
    [.student 0, .student 1, .student 1, .student 0, .student 1, .coordinator, .coordinator]
    (init 2 1 2 1) _ Reachable.init rfl
  have h := arrival_handoff 2 1 2 1 _ hr
  obtain ⟨k, st, -, -, heff, htot⟩ := h.2.2.2.2 ⟨2, 0⟩ [⟨1, 0⟩] rfl rfl
  obtain ⟨s', hs'⟩ := htot (by decide)
  have hs2 := hs'
  simp only [step, run_coordinator, transfer] at hs2
  exact ⟨_, s', rfl, hs', rfl, (heff s' hs').1, by cases hs2; rfl, h.2.1⟩

/-! ### Wake-up accounting of the tutors -/

theorem sum_map_nonneg {α : Type} (f : α → Int) (hf : ∀ x, 0 ≤ f x) (l : List α) :
    0 ≤ (l.map f).sum := by
  induction l with
  | nil => simp
  | cons x xs ih =>
    simp only [List.map_cons, List.sum_cons]
    have := hf x
    omega

theorem sum_map_le {α : Type} (f g : α → Int) (hfg : ∀ x, f x ≤ g x) (l : List α) :
    (l.map f).sum ≤ (l.map g).sum := by
  induction l with
  | nil => simp
  | cons x xs ih =>
    simp only [List.map_cons, List.sum_cons]
    have := hfg x
    omega

theorem sum_map_add_le_length {α : Type} (f g : α → Int) (hfg : ∀ x, f x + g x ≤ 1)
    (l : List α) : (l.map f).sum + (l.map g).sum ≤ l.length := by
  induction l with
  | nil => simp
  | cons x xs ih =>
    simp only [List.map_cons, List.sum_cons, List.length_cons]
    have := hfg x
    push_cast
    omega

theorem holding_set (ts : List tutor_info) (j : Nat) (t t' : tutor_info)
    (h : ts[j]? = some t) :
    holding (ts.set j t')
      = holding ts - (if t.thread = .release ∨ t.thread = .wake then (1 : Int) else 0)
          + (if t'.thread = .release ∨ t'.thread = .wake then (1 : Int) else 0) :=
  sum_map_set _ ts j t t' h

theorem wake_tokens_set (ts : List tutor_info) (j : Nat) (t t' : tutor_info)
    (h : ts[j]? = some t) :
    wake_tokens (ts.set j t')
      = wake_tokens ts
          - ((t.sem : Int) + (if t.thread = .check ∨ t.thread = .claim then 1 else 0))
          + ((t'.sem : Int) + (if t'.thread = .check ∨ t'.thread = .claim then 1 else 0)) :=
  sum_map_set _ ts j t t' h

theorem claiming_set (ts : List tutor_info) (j : Nat) (t t' : tutor_info)
    (h : ts[j]? = some t) :
    claiming (ts.set j t')
      = claiming ts - (if t.thread = .claim then (1 : Int) else 0)
          + (if t'.thread = .claim then (1 : Int) else 0) :=
  sum_map_set _ ts j t t' h

theorem student_sems_set (sts : List student_info) (i : Nat) (st st' : student_info)
    (h : sts[i]? = some st) :
    student_sems (sts.set i st') = student_sems sts - (st.sem : Int) + (st'.sem : Int) :=
  sum_map_set _ sts i st st' h

theorem seated_students_set (sts : List student_info) (i : Nat) (st st' : student_info)
    (h : sts[i]? = some st) :
    seated_students (sts.set i st')
      = seated_students sts
          - (if st.thread = .seated ∨ st.thread = .waiting then (1 : Int) else 0)
          + (if st'.thread = .seated ∨ st'.thread = .waiting then (1 : Int) else 0) :=
  sum_map_set _ sts i st st' h

theorem leaving_students_set (sts : List student_info) (i : Nat) (st st' : student_info)
    (h : sts[i]? = some st) :
    leaving_students (sts.set i st')
      = leaving_students sts
          - (if st.thread = .notify ∨ st.thread = .done then (1 : Int) else 0)
          + (if st'.thread = .notify ∨ st'.thread = .done then (1 : Int) else 0) :=
  sum_map_set _ sts i st st' h

theorem holding_nonneg (ts : List tutor_info) : 0 ≤ holding ts :=
  sum_map_nonneg _ (fun t => by split <;> omega) ts

theorem student_sems_nonneg (sts : List student_info) : 0 ≤ student_sems sts :=
  sum_map_nonneg _ (fun st => by omega) sts

theorem claiming_nonneg (ts : List tutor_info) : 0 ≤ claiming ts :=
  sum_map_nonneg _ (fun t => by split <;> omega) ts

theorem wake_tokens_nonneg (ts : List tutor_info) : 0 ≤ wake_tokens ts :=
  sum_map_nonneg _ (fun t => by split <;> omega) ts

theorem leaving_nonneg (sts : List student_info) : 0 ≤ leaving_students sts :=
  sum_map_nonneg _ (fun st => by split <;> omega) sts

theorem claiming_le_wake_tokens (ts : List tutor_info) : claiming ts ≤ wake_tokens ts :=
  sum_map_le _ _ (fun t => by
    by_cases h : t.thread = .claim
    · simp [h]
    · simp only [h, if_false]
      split <;> omega) ts

theorem leaving_add_seated_le (sts : List student_info) :
    leaving_students sts + seated_students sts ≤ sts.length :=
  sum_map_add_le_length _ _ (fun st => by
    cases h : st.thread <;> simp) sts

theorem seatInv_students (N : Int) (s s' : State) (i : Nat) (hinv : SeatInv N s)
    (h : run_students s i = .next s') : SeatInv N s' := by
  obtain ⟨h1, h2, h3⟩ := hinv
  unfold run_students at h
  split at h
  · cases h
  · rename_i st hst
    split at h
    · rename_i hpc
      unfold quota_check at h
      split at h <;>
      · cases h
        refine ⟨h1, ?_, ?_⟩
        · simp only [student_sems_set _ _ st _ hst, seated_students_set _ _ st _ hst, hpc]
          simp
          omega
        · simp only [leaving_students_set _ _ st _ hst, hpc]
          simp
          omega
    · rename_i hpc
      cases h
      refine ⟨h1, ?_, ?_⟩
      · simp only [student_sems_set _ _ st _ hst, seated_students_set _ _ st _ hst, hpc]
        simp
        omega
      · simp only [leaving_students_set _ _ st _ hst, hpc]
        simp
        omega
    · cases h
    · rename_i hpc
      unfold try_sit at h
      split at h
      · cases h
        refine ⟨h1, ?_, ?_⟩
        · simp only [student_sems_set _ _ st _ hst, seated_students_set _ _ st _ hst, hpc]
          simp
          omega
        · simp only [leaving_students_set _ _ st _ hst, hpc]
          simp
          omega
      · split at h
        · cases h
        · rename_i q hq
          cases h
          have hl := enqueue_length _ _ _ _ hq
          refine ⟨h1, ?_, ?_⟩
          · simp only [student_sems_set _ _ st _ hst, seated_students_set _ _ st _ hst, hpc,
              hl]
            push_cast
            simp
            omega
          · simp only [leaving_students_set _ _ st _ hst, hpc]
            simp
            omega
    · rename_i hpc
      cases h
      refine ⟨h1, ?_, ?_⟩
      · simp only [student_sems_set _ _ st _ hst, seated_students_set _ _ st _ hst, hpc]
        simp
        omega
      · simp only [leaving_students_set _ _ st _ hst, hpc]
        simp
        omega
    · rename_i hpc
      split at h
      · rename_i hsem
        cases h
        refine ⟨h1, ?_, ?_⟩
        · simp only [student_sems_set _ _ st _ hst, seated_students_set _ _ st _ hst, hpc]
          simp
          omega
        · simp only [leaving_students_set _ _ st _ hst, hpc]
          simp
          omega
      · cases h
    · rename_i hpc
      unfold record_help at h
      split at h
      · cases h
      · split at h
        · cases h
        · cases h
          refine ⟨h1, ?_, ?_⟩
          · simp only [student_sems_set _ _ st _ hst, seated_students_set _ _ st _ hst, hpc]
            simp
            omega
          · simp only [leaving_students_set _ _ st _ hst, hpc]
            simp
            omega

theorem seatInv_coordinator (N : Int) (s s' : State) (hinv : SeatInv N s)
    (h : run_coordinator s = .next s') : SeatInv N s' := by
  unfold run_coordinator at h
  split at h
  · split at h
    · cases h; exact hinv
    · cases h
  · split at h
    · split at h <;> (cases h; exact hinv)
    · cases h; exact hinv
  · unfold transfer at h
    split at h
    · cases h
    · split at h
      · cases h; exact hinv
      · split at h
        · rename_i pq sq ts hpq hsq hts
          cases h
          obtain ⟨h1, h2, h3⟩ := hinv
          have hl1 := enqueue_length _ _ _ _ hpq
          have hl2 := pop_length _ _ hsq
          obtain ⟨j, t, hj, rfl, -⟩ := signal_tutor_set _ _ hts
          refine ⟨h1, ?_, h3⟩
          simp only [hl1, holding_set _ j t _ hj]
          rw [hl2] at h2
          push_cast at h2 ⊢
          omega
        · cases h
  · split at h
    · split at h
      · cases h
      · rename_i t ht
        cases h
        obtain ⟨h1, h2, h3⟩ := hinv
        refine ⟨h1, ?_, h3⟩
        simp only [holding_set _ _ t _ ht]
        omega
    · cases h; exact hinv
  · cases h

theorem seatInv_tutors (N : Int) (s s' : State) (j : Nat) (hinv : SeatInv N s)
    (h : run_tutors s j = .next s') : SeatInv N s' := by
  obtain ⟨h1, h2, h3⟩ := hinv
  unfold run_tutors at h
  split at h
  · cases h
  · rename_i t ht
    split at h
    · rename_i hpc
      split at h
      · cases h
        refine ⟨h1, ?_, h3⟩
        simp only [holding_set _ _ t _ ht, hpc]
        simp
        omega
      · cases h
    · rename_i hpc
      unfold termination_check at h
      split at h
      · split at h <;>
        · cases h
          refine ⟨h1, ?_, h3⟩
          simp only [holding_set _ _ t _ ht, hpc]
          simp
          omega
      · cases h
        refine ⟨h1, ?_, h3⟩
        simp only [holding_set _ _ t _ ht, hpc]
        simp
        omega
    · rename_i hpc
      unfold claim_head at h
      split at h
      · cases h
      · split at h
        · cases h
        · split at h
          · rename_i st pq hst hpq
            cases h
            have hl := pop_length _ _ hpq
            refine ⟨h1, ?_, ?_⟩
            · simp only [holding_set _ _ t _ ht, student_sems_set _ _ st _ hst,
                seated_students_set _ _ st _ hst, hpc]
              rw [hl] at h2
              push_cast at h2 ⊢
              simp
              omega
            · simp only [leaving_students_set _ _ st _ hst]
              omega
          · cases h
    · rename_i hpc
      unfold leave_seat at h
      cases h
      refine ⟨h1, ?_, h3⟩
      simp only [holding_set _ _ t _ ht, hpc]
      simp
      omega
    · rename_i hpc
      unfold wake_student at h
      split at h
      · cases h
      · split at h
        · cases h
        · rename_i st hst
          cases h
          refine ⟨h1, ?_, ?_⟩
          · simp only [holding_set _ _ t _ ht, student_sems_set _ _ st _ hst,
              seated_students_set _ _ st _ hst, hpc]
            push_cast
            simp
            omega
          · simp only [leaving_students_set _ _ st _ hst]
            omega
    · rename_i hpc
      unfold count_session at h
      split at h
      · cases h
      · split at h
        · cases h
        · cases h
          refine ⟨h1, ?_, h3⟩
          simp only [holding_set _ _ t _ ht, hpc]
          simp
          omega
    · rename_i hpc
      cases h
      refine ⟨h1, ?_, h3⟩
      simp only [holding_set _ _ t _ ht, hpc]
      simp
      omega
    · cases h

theorem sum_map_const_zero {α β : Type} (f : β → Int) (g : α → β) (hfg : ∀ x, f (g x) = 0)
    (l : List α) : ((l.map g).map f).sum = 0 := by
  induction l with
  | nil => rfl
  | cons x xs ih =>
    simp only [List.map_cons, List.sum_cons, hfg x, ih]
    rfl

theorem seatInv_init (N T C H : Int) : SeatInv N (init N T C H) := by
  refine ⟨rfl, ?_, ?_⟩
  · simp only [init, holding, student_sems, seated_students, List.length_nil]
    rw [sum_map_const_zero _ _ (fun _ => by simp), sum_map_const_zero _ _ (fun _ => by simp),
      sum_map_const_zero _ _ (fun _ => by simp)]
    simp
  · simp only [init, leaving_students]
    rw [sum_map_const_zero _ _ (fun _ => by simp)]

theorem seatInv_reachable (N T C H : Int) (s : State) (hr : Reachable N T C H s) :
    SeatInv N s := by
  induction hr with
  | init => exact seatInv_init N T C H
  | step s s' th _ hstep ih =>
    cases th with
    | student i => exact seatInv_students N s s' i ih hstep
    | coordinator => exact seatInv_coordinator N s s' ih hstep
    | tutor j => exact seatInv_tutors N s s' j ih hstep

theorem wakeInv_students (s s' : State) (i : Nat) (hinv : WakeInv s)
    (h : run_students s i = .next s') : WakeInv s' := by
  obtain ⟨h5, h6⟩ := hinv
  unfold run_students at h
  split at h
  · cases h
  · rename_i st hst
    split at h
    · unfold quota_check at h
      split at h
      · cases h
        refine ⟨h5, fun hc => ?_⟩
        obtain ⟨a, b, c⟩ := h6 hc
        refine ⟨a, ?_, c⟩
        show s.students_done + 1 - s.num_students ≥ 0
        omega
      · cases h; exact ⟨h5, h6⟩
    · cases h; exact ⟨h5, h6⟩
    · cases h
    · unfold try_sit at h
      split at h
      · cases h; exact ⟨h5, h6⟩
      · split at h
        · cases h
        · cases h; exact ⟨h5, h6⟩
    · cases h; exact ⟨h5, h6⟩
    · split at h
      · cases h; exact ⟨h5, h6⟩
      · cases h
    · unfold record_help at h
      split at h
      · cases h
      · split at h
        · cases h
        · cases h; exact ⟨h5, h6⟩

/-- When the coordinator finds the arrival queue empty and all students done,
nothing is left in `priority_queue` and no tutor has a wake-up pending. -/
theorem drained_at_termination (N : Int) (s : State) (hA : SeatInv N s)
    (hlen : s.student.length = N.toNat) (hw : wake_tokens s.tutor = s.priority_queue.length)
    (hq : s.student_queue = []) (hd : s.students_done - s.num_students ≥ 0) :
    s.priority_queue = [] ∧ claiming s.tutor = 0 := by
  obtain ⟨g0, g1, g2⟩ := hA
  have f1 := leaving_add_seated_le s.student
  have f2 := holding_nonneg s.tutor
  have f3 := student_sems_nonneg s.student
  have f4 := leaving_nonneg s.student
  have f5 := claiming_le_wake_tokens s.tutor
  have f6 := claiming_nonneg s.tutor
  have hcast : (s.student.length : Int) = (N.toNat : Int) := by rw [hlen]
  have hmax : (N.toNat : Int) ≤ leaving_students s.student := by
    rcases le_or_lt 0 N with hN | hN
    · rw [Int.toNat_of_nonneg hN]; omega
    · rw [Int.toNat_eq_zero.mpr (le_of_lt hN)]; simpa using f4
  rw [hq] at g1
  simp only [List.length_nil, Nat.cast_zero] at g1
  have hz : (s.priority_queue.length : Int) = 0 := by omega
  refine ⟨List.length_eq_zero.mp (by exact_mod_cast hz), ?_⟩
  omega

theorem wakeInv_coordinator (N : Int) (s s' : State) (hA : SeatInv N s)
    (hlen : s.student.length = N.toNat) (hinv : WakeInv s)
    (h : run_coordinator s = .next s') : WakeInv s' := by
  obtain ⟨h5, h6⟩ := hinv
  unfold run_coordinator at h
  split at h
  · rename_i hpc
    have h5' := h5 (by simp [hpc, terminating])
    split at h
    · cases h
      exact ⟨fun _ => h5', fun hc => by simp [terminating] at hc⟩
    · cases h
  · rename_i hpc
    have h5' := h5 (by simp [hpc, terminating])
    split at h
    · rename_i hq
      split at h
      · rename_i hd
        cases h
        refine ⟨fun hc => by simp [terminating] at hc, fun _ => ?_⟩
        have hq' : s.student_queue = [] := by simpa [is_empty] using hq
        obtain ⟨a, c⟩ := drained_at_termination N s hA hlen h5' hq' hd
        exact ⟨a, hd, c⟩
      · cases h
        exact ⟨fun _ => h5', fun hc => by simp [terminating] at hc⟩
    · cases h
      exact ⟨fun _ => h5', fun hc => by simp [terminating] at hc⟩
  · rename_i hpc
    have h5' := h5 (by simp [hpc, terminating])
    unfold transfer at h
    split at h
    · cases h
    · split at h
      · cases h
        exact ⟨fun _ => h5', fun hc => by simp [terminating] at hc⟩
      · split at h
        · rename_i pq sq ts hpq hsq hts
          cases h
          have hl1 := enqueue_length _ _ _ _ hpq
          obtain ⟨j, t, hj, rfl, -⟩ := signal_tutor_set _ _ hts
          refine ⟨fun _ => ?_, fun hc => by simp [terminating] at hc⟩
          simp only [wake_tokens_set _ j t _ hj, hl1]
          push_cast
          omega
        · cases h
  · rename_i i hpc
    obtain ⟨a, b, c⟩ := h6 (by simp [hpc, terminating])
    split at h
    · split at h
      · cases h
      · rename_i t ht
        cases h
        refine ⟨fun hc => by simp [terminating] at hc, fun _ => ⟨a, b, ?_⟩⟩
        simp only [claiming_set _ _ t _ ht]
        omega
    · cases h
      exact ⟨fun hc => by simp [terminating] at hc, fun _ => ⟨a, b, c⟩⟩
  · cases h

theorem wakeInv_tutors (s s' : State) (j : Nat) (hinv : WakeInv s)
    (h : run_tutors s j = .next s') : WakeInv s' := by
  obtain ⟨h5, h6⟩ := hinv
  unfold run_tutors at h
  split at h
  · cases h
  · rename_i t ht
    split at h
    · rename_i hpc
      split at h
      · rename_i hsem
        cases h
        refine ⟨fun hc => ?_, fun hc => ?_⟩
        · have h5' := h5 hc
          simp only [wake_tokens_set _ _ t _ ht, hpc]
          simp
          omega
        · obtain ⟨a, b, c⟩ := h6 hc
          refine ⟨a, b, ?_⟩
          simp only [claiming_set _ _ t _ ht, hpc]
          simp
          omega
      · cases h
    · rename_i hpc
      unfold termination_check at h
      split at h
      · rename_i hq
        have hq' : s.priority_queue = [] := by simpa [is_empty] using hq
        split at h
        · rename_i hd
          cases h
          refine ⟨fun hc => ?_, fun hc => ?_⟩
          · exfalso
            have h5' := h5 hc
            have hn := wake_tokens_nonneg
              (s.tutor.set j { t with sem := t.sem, thread := TPc.done })
            rw [wake_tokens_set _ _ t _ ht, hpc, h5', hq'] at hn
            simp at hn
          · obtain ⟨a, b, c⟩ := h6 hc
            refine ⟨a, b, ?_⟩
            simp only [claiming_set _ _ t _ ht, hpc]
            simp
            omega
        · rename_i hd
          cases h
          refine ⟨fun hc => ?_, fun hc => ?_⟩
          · have h5' := h5 hc
            simp only [wake_tokens_set _ _ t _ ht, hpc]
            simp
            omega
          · exact absurd (h6 hc).2.1 hd
      · rename_i hq
        cases h
        refine ⟨fun hc => ?_, fun hc => ?_⟩
        · have h5' := h5 hc
          simp only [wake_tokens_set _ _ t _ ht, hpc]
          simp
          omega
        · exfalso
          apply hq
          simp [(h6 hc).1, is_empty]
    · rename_i hpc
      unfold claim_head at h
      split at h
      · cases h
      · split at h
        · cases h
        · split at h
          · rename_i st pq hst hpq
            cases h
            have hl := pop_length _ _ hpq
            refine ⟨fun hc => ?_, fun hc => ?_⟩
            · have h5' := h5 hc
              simp only [wake_tokens_set _ _ t _ ht, hpc]
              rw [hl] at h5'
              push_cast at h5'
              simp
              omega
            · exfalso
              rw [(h6 hc).1] at hpq
              simp [pop] at hpq
          · cases h
    · rename_i hpc
      unfold leave_seat at h
      cases h
      refine ⟨fun hc => ?_, fun hc => ?_⟩
      · have h5' := h5 hc
        simp only [wake_tokens_set _ _ t _ ht, hpc]
        simp
        omega
      · obtain ⟨a, b, c⟩ := h6 hc
        refine ⟨a, b, ?_⟩
        simp only [claiming_set _ _ t _ ht, hpc]
        simp
        omega
    · rename_i hpc
      unfold wake_student at h
      split at h
      · cases h
      · split at h
        · cases h
        · cases h
          refine ⟨fun hc => ?_, fun hc => ?_⟩
          · have h5' := h5 hc
            simp only [wake_tokens_set _ _ t _ ht, hpc]
            simp
            omega
          · obtain ⟨a, b, c⟩ := h6 hc
            refine ⟨a, b, ?_⟩
            simp only [claiming_set _ _ t _ ht, hpc]
            simp
            omega
    · rename_i hpc
      unfold count_session at h
      split at h
      · cases h
      · split at h
        · cases h
        · cases h
          refine ⟨fun hc => ?_, fun hc => ?_⟩
          · have h5' := h5 hc
            simp only [wake_tokens_set _ _ t _ ht, hpc]
            simp
            omega
          · obtain ⟨a, b, c⟩ := h6 hc
            refine ⟨a, ?_, ?_⟩
            · exact b
            · simp only [claiming_set _ _ t _ ht, hpc]
              simp
              omega
    · rename_i hpc
      cases h
      refine ⟨fun hc => ?_, fun hc => ?_⟩
      · have h5' := h5 hc
        simp only [wake_tokens_set _ _ t _ ht, hpc]
        simp
        omega
      · obtain ⟨a, b, c⟩ := h6 hc
        refine ⟨a, b, ?_⟩
        simp only [claiming_set _ _ t _ ht, hpc]
        simp
        omega
    · cases h

theorem wakeInv_reachable (N T C H : Int) (s : State) (hr : Reachable N T C H s) :
    WakeInv s := by
  induction hr with
  | init =>
    refine ⟨fun _ => ?_, fun hc => by simp [init, terminating] at hc⟩
    simp only [init, wake_tokens, List.length_nil]
    rw [sum_map_const_zero _ _ (fun _ => by simp)]
    rfl
  | step s s' th hs hstep ih =>
    cases th with
    | student i => exact wakeInv_students s s' i ih hstep
    | coordinator =>
      have hlen : s.student.length = N.toNat := by
        have := congrArg List.length (arrivalInv_reachable N T C H s hs).1
        simpa using this
      exact wakeInv_coordinator N s s' (seatInv_reachable N T C H s hs) hlen ih hstep
    | tutor j => exact wakeInv_tutors s s' j ih hstep

theorem assign_student_none (sts : List student_info) (s_id : Int) (i : Nat)
    (cur : Option Nat) (h : ∀ st ∈ sts, st.student_id ≠ s_id) :
    assign_student sts s_id i cur = cur := by
  induction sts generalizing i cur with
  | nil => rfl
  | cons st rest ih =>
    have h1 : st.student_id ≠ s_id := h st (List.mem_cons_self _ _)
    simp only [assign_student, h1, if_false]
    exact ih (i + 1) cur (fun x hx => h x (List.mem_cons_of_mem _ hx))

/-- When some student carries the id, the loop of lines 362-366 ends with
`my_student` pointing into the student array. -/
theorem assign_student_some (sts : List student_info) (s_id : Int) (i : Nat)
    (cur : Option Nat) (h : ∃ st ∈ sts, st.student_id = s_id) :
    ∃ k, assign_student sts s_id i cur = some k ∧ i ≤ k ∧ k - i < sts.length := by
  induction sts generalizing i cur with
  | nil =>
    obtain ⟨st, hst, -⟩ := h
    simp at hst
  | cons st rest ih =>
    by_cases hr : ∃ x ∈ rest, x.student_id = s_id
    · obtain ⟨k, hk, h1, h2⟩ := ih (i + 1) (if st.student_id = s_id then some i else cur) hr
      refine ⟨k, by simpa [assign_student] using hk, by omega, ?_⟩
      simp only [List.length_cons]
      omega
    · have hnone : ∀ x ∈ rest, x.student_id ≠ s_id := fun x hx hid => hr ⟨x, hx, hid⟩
      have hst : st.student_id = s_id := by
        obtain ⟨x, hx, hid⟩ := h
        rcases List.mem_cons.mp hx with rfl | hx'
        · exact hid
        · exact absurd hid (hnone x hx')
      refine ⟨i, ?_, le_refl _, by simp⟩
      simp only [assign_student, hst, if_true]
      exact assign_student_none rest s_id (i + 1) (some i) hnone

/-- C12 (safe claim of the queue head), in every state `./csmc N T C H` can
reach (in particular for `N >= 1` and `T >= 1`).  (1) `priority_queue` has at
least as many cells as there are tutors that have passed the termination check
and not yet executed `pop`.  (2) For such a tutor `peek` and `pop` are applied
to a non-empty list, and its whole claim region runs without a fault.
(3) The reason: until the coordinator starts its termination broadcast, the
wake-ups pending for tutors (semaphore counts plus tutors between `sem_wait`
and `pop`) are exactly as many as the cells of `priority_queue`; (4) once the
broadcast has started, `priority_queue` is empty, all students are done and no
tutor is about to claim. -/
theorem safe_claim (N T C H : Int) (s : State) (hr : Reachable N T C H s) :
    claiming s.tutor ≤ s.priority_queue.length
    ∧ (∀ (j : Nat) (t : tutor_info), s.tutor[j]? = some t → t.thread = .claim →
        (∃ id q, peek s.priority_queue = some id ∧ pop s.priority_queue = some q)
          ∧ ∃ s', step s (.tutor j) = .next s')
    ∧ (terminating s.coordinator = false →
        wake_tokens s.tutor = s.priority_queue.length)
    ∧ (terminating s.coordinator = true →
        s.priority_queue = [] ∧ s.students_done - s.num_students ≥ 0
          ∧ claiming s.tutor = 0) := by
  obtain ⟨h5, h6⟩ := wakeInv_reachable N T C H s hr
  have hA := arrivalInv_reachable N T C H s hr
  have hle : claiming s.tutor ≤ s.priority_queue.length := by
    cases hc : terminating s.coordinator with
    | false =>
      have := h5 hc
      have := claiming_le_wake_tokens s.tutor
      omega
    | true =>
      obtain ⟨a, -, c⟩ := h6 hc
      rw [c, a]
      simp
  refine ⟨hle, ?_, h5, h6⟩
  intro j t ht hpc
  have hpos : 1 ≤ claiming s.tutor := by
    have hn := claiming_nonneg (s.tutor.set j { t with thread := TPc.done })
    rw [claiming_set _ _ t _ ht, hpc] at hn
    simp at hn
    omega
  cases hq : s.priority_queue with
  | nil =>
    rw [hq] at hle
    simp at hle
    omega
  | cons hd tl =>
    refine ⟨⟨hd.student_id, tl, rfl, rfl⟩, ?_⟩
    have hmem := hA.2.2.2 hd (hq ▸ List.mem_cons_self _ _)
    obtain ⟨st0, hst0, hid0⟩ := List.mem_map.mp hmem
    obtain ⟨k, hk, -, hk2⟩ :=
      assign_student_some s.student hd.student_id 0 t.my_student ⟨st0, hst0, hid0⟩
    have hk3 : k < s.student.length := by omega
    simp only [step, run_tutors, ht, hpc, claim_head, hq, peek, hk, pop,
      List.getElem?_eq_getElem hk3]
    exact ⟨_, rfl⟩

/-- C12, at a concrete state of `./csmc 1 1 1 1`: the tutor has passed the
termination check, `priority_queue` holds the cell of student 1, and the claim
goes through. -/
theorem safe_claim_witness :
    ∃ s, run_schedule (init 1 1 1 1)
        [.student 0, .student 0, .student 0, .coordinator, .coordinator, .coordinator,
          .tutor 0, .tutor 0] = some s
      ∧ s.tutor = [⟨1, 0, .claim, 0, none⟩] ∧ s.priority_queue = [⟨1, 0⟩]
      ∧ claiming s.tutor ≤ s.priority_queue.length
      ∧ ∃ id q, peek s.priority_queue = some id ∧ pop s.priority_queue = some q := by
  have hr := run_schedule_reachable 1 1 1 1
    [.student 0, .student 0, .student 0, .coordinator, .coordinator, .coordinator,
      .tutor 0, .tutor 0] (init 1 1 1 1) _ Reachable.init rfl
  have h := safe_claim 1 1 1 1 _ hr
  exact ⟨_, rfl, rfl, rfl, h.1, (h.2.1 0 ⟨1, 0, .claim, 0, none⟩ rfl rfl).1⟩

/-- A tutor woken in a run never meets an empty `priority_queue` while students
remain: in a reachable state, a tutor at its termination check with the queue
empty finds `students_done >= num_students`. -/
theorem empty_queue_wake_is_termination (N T C H : Int) (s : State)
    (hr : Reachable N T C H s) (j : Nat) (t : tutor_info) (ht : s.tutor[j]? = some t)
    (hpc : t.thread = .check) (hq : s.priority_queue = []) :
    s.students_done - s.num_students ≥ 0 := by
  obtain ⟨h5, h6⟩ := wakeInv_reachable N T C H s hr
  cases hc : terminating s.coordinator with
  | false =>
    exfalso
    have h5' := h5 hc
    have hn := wake_tokens_nonneg (s.tutor.set j { t with sem := t.sem, thread := TPc.done })
    rw [wake_tokens_set _ _ t _ ht, hpc, h5', hq] at hn
    simp at hn
  | true => exact (h6 hc).2.1

end Csmc
